import Mathlib

/-!
A shallow embedding of the quadtree image compressor: the quadtree builder
(`mount`), the bit codec (`encode_v1` / `decode_v1`), the tree simplifier
(`trim`), the renderer (`to_image`) and the QTI container (`to_qti` /
`from_qti`), together with theorems checking the documented properties of
those operations against the embedded code.

Machine integers are modelled as `Nat`, with explicit reductions where the
Rust integer width is observable (the `u32` products, shifts and
subtractions of the container header).  Rust panics (out-of-bounds
indexing, `usize` subtraction underflow, a failing `assert!`) are modelled
by an explicit `panicked` outcome where a property depends on them.
-/

/-- RGBA color with byte channels, modelling `image::Rgba<u8>`. -/
structure Rgba where
  r : Nat
  g : Nat
  b : Nat
  a : Nat
deriving DecidableEq, Repr

/-- The filler color `image::Rgba([0; 4])` (transparent black). -/
def transparentBlack : Rgba := ⟨0, 0, 0, 0⟩

/-- Mirrors `QuadtreeNode` (src/src/node/mod.rs): the field
`sections : Option<Box<[QuadtreeNode; 4]>>` is modelled by two constructors,
`leaf` for `sections = None` and `branch` for `Some` of the four children
(the Rust array type guarantees there are exactly four). -/
inductive QuadtreeNode where
  | leaf (color : Nat)
  | branch (color : Nat) (s0 s1 s2 s3 : QuadtreeNode)
deriving DecidableEq, Repr

/-- The `color` field of a node. -/
def QuadtreeNode.color : QuadtreeNode → Nat
  | .leaf c => c
  | .branch c _ _ _ _ => c

/-- Whether `sections.is_none()` holds for the node. -/
def QuadtreeNode.isLeaf : QuadtreeNode → Bool
  | .leaf _ => true
  | .branch _ _ _ _ _ => false

/-- Length of the longest root-to-leaf path of the tree. -/
def QuadtreeNode.height : QuadtreeNode → Nat
  | .leaf _ => 0
  | .branch _ s0 s1 s2 s3 =>
    1 + max (max s0.height s1.height) (max s2.height s3.height)

/-- Number of nodes of the tree. -/
def QuadtreeNode.size : QuadtreeNode → Nat
  | .leaf _ => 1
  | .branch _ s0 s1 s2 s3 => 1 + s0.size + s1.size + s2.size + s3.size

/-- Mirrors `MountError` (src/src/node/error.rs). -/
inductive MountError where
  | invalidSize
  | colorOutOfRange
deriving DecidableEq, Repr

/-- Mirrors `EncodeError` (src/src/node/error.rs). -/
inductive EncodeError where
  | colorOutOfRange
deriving DecidableEq, Repr

/-- Mirrors `DecodeError` (src/src/node/error.rs). -/
inductive DecodeError where
  | insufficientData
  | missingHeader
  | paletteTooLarge
deriving DecidableEq, Repr

/-- Mirrors `DrawError` (src/src/node/error.rs). -/
inductive DrawError where
  | nonSquare
  | nonPowerOfTwo
  | colorOutOfRange
deriving DecidableEq, Repr

/-- Outcome of a fallible Rust computation that can also panic: `ok` and
`err` are the two `Result` variants, `panicked` models a Rust panic
(out-of-bounds index, `usize` subtraction underflow in a debug build, or a
failing `assert!`). -/
inductive DecodeOutcome (α : Type) where
  | ok (a : α)
  | err (e : DecodeError)
  | panicked
deriving DecidableEq, Repr

/-- Sequencing of `DecodeOutcome` computations (the `?` operator plus panic
propagation). -/
def DecodeOutcome.bind {α β : Type} :
    DecodeOutcome α → (α → DecodeOutcome β) → DecodeOutcome β
  | .ok a, f => f a
  | .err e, _ => .err e
  | .panicked, _ => .panicked

/-- Decidable equality for `Except` results, so concrete runs of the
embedded functions can be checked by evaluation. -/
instance {e a : Type} [DecidableEq e] [DecidableEq a] :
    DecidableEq (Except e a) := fun x y =>
  match x, y with
  | .ok u, .ok v =>
    if h : u = v then isTrue (by rw [h]) else isFalse (by simp [h])
  | .error u, .error v =>
    if h : u = v then isTrue (by rw [h]) else isFalse (by simp [h])
  | .ok _, .error _ => isFalse (by simp)
  | .error _, .ok _ => isFalse (by simp)

/-- Models the Rust expression `1u32 << w`.  For `w ≤ 31` this is `2 ^ w`;
at `w = 32` a release build masks the shift amount (`1 << 0 = 1`) while a
debug build panics.  Theorems below stay in `w ≤ 31` except where the
overflow itself is at issue (there the masked value is used, and both build
behaviours falsify the property in question). -/
def oneShl32 (w : Nat) : Nat := 1 <<< (w % 32)

/-- Halving loop of `popCount`; `fuel` only makes the recursion structural
and is never exhausted for the fuel `popCount` supplies. -/
def popCountAux : Nat → Nat → Nat
  | 0, _ => 0
  | fuel + 1, n => if n = 0 then 0 else n % 2 + popCountAux fuel (n / 2)

/-- Models `u32::count_ones` (`n` halving steps always reach zero). -/
def popCount (n : Nat) : Nat := popCountAux n n

/-- Models `usize::is_power_of_two` (`count_ones() == 1`). -/
def isPow2 (n : Nat) : Bool := popCount n == 1

/-- Halving loop of `trailingZeros`; `fuel` only makes the recursion
structural and is never exhausted for the fuel `trailingZeros` supplies. -/
def trailingZerosAux : Nat → Nat → Nat
  | 0, _ => 0
  | fuel + 1, n =>
    if n = 0 then 0
    else if n % 2 = 0 then trailingZerosAux fuel (n / 2) + 1
    else 0

/-- Models `usize::trailing_zeros` on the positive values this program
applies it to (`n` halving steps always suffice to reach an odd number). -/
def trailingZeros (n : Nat) : Nat := trailingZerosAux n n

/-- Pixels of the `size × size` window of the flat grid `image` (row length
`row_len`) whose top-left corner is `(sx, sy)`: concatenates the Rust row
slices `image[(row * row_len + sx)..(row * row_len + sx + size)]` for
`row ∈ [sy, sy + size)`.  A Rust slice panics when its range exceeds the
buffer; every window taken below stays inside the grid. -/
def windowPixels (image : List Nat) (row_len sx sy size : Nat) : List Nat :=
  (List.range size).flatMap fun row =>
    (image.drop ((sy + row) * row_len + sx)).take size

/-- Order in which the Rust code sorts its `(-count, color)` pairs
(count descending, ties by ascending color; `Ord` on `&u32` compares the
pointees).  Stored here as `(count, color)` over `Nat`. -/
def abundanceRel (p q : Nat × Nat) : Prop :=
  q.1 < p.1 ∨ (p.1 = q.1 ∧ p.2 ≤ q.2)

instance : DecidableRel abundanceRel := fun p q => by
  unfold abundanceRel; infer_instance

instance : IsTotal (Nat × Nat) abundanceRel :=
  ⟨by intro a b; unfold abundanceRel; omega⟩

instance : IsTrans (Nat × Nat) abundanceRel :=
  ⟨by intro a b c; unfold abundanceRel; omega⟩

/-- Models building the per-color count `HashMap` over a window and sorting
the `(-count, &color)` pairs: the distinct window colors paired with their
counts, sorted by count descending then color ascending.  The keys are
pairwise distinct, so the sorted list is the unique sorted permutation and
does not depend on the hash map's iteration order (`insertionSort` is used
because the result is the same as the Rust stable `sort`). -/
def abundanceSort (region : List Nat) : List (Nat × Nat) :=
  (region.dedup.map fun c => (region.count c, c)).insertionSort abundanceRel

/-- The head of `abundanceSort` — the code's `abundance_sort[0]`, which in
Rust panics on an empty window; every window this development evaluates is
nonempty, so the default is never the value used. -/
def dominantPair (region : List Nat) : Nat × Nat :=
  match abundanceSort region with
  | [] => (0, 0)
  | p :: _ => p

/-- The gradient-mode abundance sum of `mount`: the first four entries of
`abundance_sort` (padded with zero-count sentinels, mirroring
`chain(iter::repeat(&(0, &&0))).take(4)`), each contributing its count when
the count exceeds `sensitivity * size * size / 65536` and zero otherwise. -/
def gradientSum (region : List Nat) (sensitivity size : Nat) : Nat :=
  (((abundanceSort region) ++ List.replicate 4 (0, 0)).take 4).foldr
    (fun (x : Nat × Nat) (acc : Nat) =>
      (if sensitivity * size * size / 65536 < x.1 then x.1 else 0) + acc) 0

/-- The corner x-offset `(sect_ind & 1) * 6 * off / 2` of gradient mode. -/
def gradOffX (sect off : Nat) : Nat := (sect &&& 1) * 6 * off / 2

/-- The corner y-offset `(sect_ind & 2) * 3 * off / 2` of gradient mode. -/
def gradOffY (sect off : Nat) : Nat := (sect &&& 2) * 3 * off / 2

/-- Color assigned to gradient-mode child `sect`: the dominant color of the
`size / 4`-sided sub-window at the corner offsets (the inner sort of
`mount` orders the per-color counts exactly as `abundanceSort` does). -/
def gradChildColor (image : List Nat) (row_len sx sy size sect : Nat) : Nat :=
  (dominantPair (windowPixels image row_len
    (sx + gradOffX sect (size / 4)) (sy + gradOffY sect (size / 4))
    (size / 4))).2

/-- Models the recursive part of `QuadtreeNode::mount`
(src/src/node/mod.rs) for the `size × size` window at `(sx, sy)`: the
dominant window color becomes the node color (failing when it exceeds
`1 << w`); a node splits when `size > 1` and the dominant count is below
`sensitivity * size² / 16384`, producing either the four gradient corner
leaves or four recursive quadrant children.  `image`, `row_len`, `w`,
`sensitivity` and `gradient` are fixed through the recursion; each
recursive Rust call re-runs the top-level length check, which cannot fail
once it has passed.  `fuel` only makes the recursion structural: `mount`
passes `row_len`, and since the side at least halves at every split while
the fuel drops by one, the zero-fuel arm is unreachable from `mount`
(splitting requires `size > 1`, and `fuel ≥ size` is invariant). -/
def mountAux (image : List Nat) (row_len w sensitivity : Nat)
    (gradient : Bool) : Nat → Nat → Nat → Nat →
    Except MountError QuadtreeNode
  | 0, _, _, _ => .error .invalidSize
  | fuel + 1, size, sx, sy =>
  let res := dominantPair (windowPixels image row_len sx sy size)
  if res.2 > oneShl32 w then .error .colorOutOfRange
  else if 1 < size ∧ res.1 < sensitivity * size * size / 16384 then
    if gradient ∧ 2 < size ∧
        sensitivity * size * size / 16384 <
          gradientSum (windowPixels image row_len sx sy size) sensitivity size
    then
      .ok (.branch res.2
        (.leaf (gradChildColor image row_len sx sy size 0))
        (.leaf (gradChildColor image row_len sx sy size 1))
        (.leaf (gradChildColor image row_len sx sy size 2))
        (.leaf (gradChildColor image row_len sx sy size 3)))
    else
      match mountAux image row_len w sensitivity gradient fuel (size / 2)
          sx sy with
      | .error e => .error e
      | .ok s0 =>
        match mountAux image row_len w sensitivity gradient fuel (size / 2)
            (sx + size / 2) sy with
        | .error e => .error e
        | .ok s1 =>
          match mountAux image row_len w sensitivity gradient fuel
              (size / 2) sx (sy + size / 2) with
          | .error e => .error e
          | .ok s2 =>
            match mountAux image row_len w sensitivity gradient fuel
                (size / 2) (sx + size / 2) (sy + size / 2) with
            | .error e => .error e
            | .ok s3 => .ok (.branch res.2 s0 s1 s2 s3)
  else .ok (.leaf res.2)

/-- One-step unfolding of `mountAux` for positive fuel. -/
theorem mountAux_eq (image : List Nat) (row_len w sensitivity : Nat)
    (gradient : Bool) (fuel size sx sy : Nat) (hf : 0 < fuel) :
    mountAux image row_len w sensitivity gradient fuel size sx sy =
      (let res := dominantPair (windowPixels image row_len sx sy size)
       if res.2 > oneShl32 w then .error .colorOutOfRange
       else if 1 < size ∧ res.1 < sensitivity * size * size / 16384 then
         if gradient ∧ 2 < size ∧
             sensitivity * size * size / 16384 <
               gradientSum (windowPixels image row_len sx sy size)
                 sensitivity size
         then
           .ok (.branch res.2
             (.leaf (gradChildColor image row_len sx sy size 0))
             (.leaf (gradChildColor image row_len sx sy size 1))
             (.leaf (gradChildColor image row_len sx sy size 2))
             (.leaf (gradChildColor image row_len sx sy size 3)))
         else
           match mountAux image row_len w sensitivity gradient (fuel - 1)
               (size / 2) sx sy with
           | .error e => .error e
           | .ok s0 =>
             match mountAux image row_len w sensitivity gradient (fuel - 1)
                 (size / 2) (sx + size / 2) sy with
             | .error e => .error e
             | .ok s1 =>
               match mountAux image row_len w sensitivity gradient
                   (fuel - 1) (size / 2) sx (sy + size / 2) with
               | .error e => .error e
               | .ok s2 =>
                 match mountAux image row_len w sensitivity gradient
                     (fuel - 1) (size / 2) (sx + size / 2)
                     (sy + size / 2) with
                 | .error e => .error e
                 | .ok s3 => .ok (.branch res.2 s0 s1 s2 s3)
       else .ok (.leaf res.2)) := by
  obtain ⟨f, rfl⟩ : ∃ f, fuel = f + 1 := ⟨fuel - 1, by omega⟩
  rfl

/-- Models `QuadtreeNode::mount` as called from outside (`size = None`,
`start_pos = None`): reject grids whose length is not a power of four
(`!len.is_power_of_two() || len.trailing_zeros() % 2 == 1`), compute
`row_len = len >> (len.trailing_zeros() >> 1)` (the integer square root of
the power-of-four length) and build the tree for the whole grid. -/
def mount (image : List Nat) (w sensitivity : Nat) (gradient : Bool) :
    Except MountError QuadtreeNode :=
  if ¬ (isPow2 image.length = true) ∨ trailingZeros image.length % 2 = 1
  then .error .invalidSize
  else
    let row_len := image.length >>> (trailingZeros image.length >>> 1)
    mountAux image row_len w sensitivity gradient row_len row_len 0 0

/-- Big-endian color field of `encode_v1`: for `bit_ind ∈ [0, w)` the bit
`color & (1 << (w - bit_ind - 1)) != 0`. -/
def colorBits (w color : Nat) : List Bool :=
  (List.range w).map fun bit_ind =>
    decide (color &&& (1 <<< (w - bit_ind - 1)) ≠ 0)

/-- Models `QuadtreeNode::encode_v1` (src/src/node/qti.rs): appends the
node's bits to `buffer` — one flag bit (whether sections are present), then
the `w` color bits, then the encodings of the four children in order — or
fails with `ColorOutOfRange` when the node color is `≥ 1 << w`. -/
def encode_v1 (w : Nat) : QuadtreeNode → List Bool →
    Except EncodeError (List Bool)
  | .leaf color, buffer =>
    if color ≥ oneShl32 w then .error .colorOutOfRange
    else .ok (buffer ++ false :: colorBits w color)
  | .branch color s0 s1 s2 s3, buffer =>
    if color ≥ oneShl32 w then .error .colorOutOfRange
    else do
      let b0 ← encode_v1 w s0 (buffer ++ true :: colorBits w color)
      let b1 ← encode_v1 w s1 b0
      let b2 ← encode_v1 w s2 b1
      encode_v1 w s3 b2

/-- Exact bits `encode_v1` appends for one tree (flag bit, color bits,
children in order). -/
def encBits (w : Nat) : QuadtreeNode → List Bool
  | .leaf color => false :: colorBits w color
  | .branch color s0 s1 s2 s3 =>
    (true :: colorBits w color) ++ encBits w s0 ++ encBits w s1 ++
      encBits w s2 ++ encBits w s3

/-- Whether every node color of the tree is strictly below `2 ^ w`. -/
def allColorsLt (w : Nat) : QuadtreeNode → Bool
  | .leaf color => decide (color < 2 ^ w)
  | .branch color s0 s1 s2 s3 =>
    decide (color < 2 ^ w) && allColorsLt w s0 && allColorsLt w s1 &&
      allColorsLt w s2 && allColorsLt w s3

/-- Models the color-reading loop of `decode_v1`
(`for bit_ind in 0..width { n |= buffer[curr_ind + bit_ind + 1] << (width -
bit_ind - 1) }`).  `k` counts the iterations still to run (`bit_ind =
w - k`) and `n` is the accumulator; an out-of-range bit index is the Rust
panic. -/
def readColorLoop (buffer : List Bool) (w curr_ind : Nat) :
    Nat → Nat → DecodeOutcome Nat
  | 0, n => .ok n
  | k + 1, n =>
    let bit_ind := w - (k + 1)
    match buffer[curr_ind + bit_ind + 1]? with
    | none => .panicked
    | some b =>
      readColorLoop buffer w curr_ind k
        (n ||| ((if b then 1 else 0) <<< (w - bit_ind - 1)))

/-- Models `QuadtreeNode::decode_v1` (src/src/node/qti.rs).  The function
first evaluates `buffer.len() - curr_ind < width` — a `usize` subtraction
that underflows when `curr_ind > buffer.len()` (debug panic; a release
build wraps and then panics on the subsequent out-of-bounds bit index), so
that case is `panicked`.  It then reads the `w` color bits (panicking on an
out-of-bounds index), reads the flag bit at `curr_ind`, advances by
`1 + w`, and decodes four children when the flag is set.  `fuel` only
bounds the recursion so the function is total in Lean: nested calls have
strictly increasing `curr_ind`, so a call that would exhaust the fuel
supplied by `decode_v1` below has `curr_ind > buffer.length` and panics in
Rust as well, which is the value the fuel case returns. -/
def decodeFuel (w : Nat) (buffer : List Bool) :
    Nat → Nat → DecodeOutcome (QuadtreeNode × Nat)
  | 0, _ => .panicked
  | fuel + 1, curr_ind =>
    if buffer.length < curr_ind then .panicked
    else if buffer.length - curr_ind < w then .err .insufficientData
    else
      DecodeOutcome.bind (readColorLoop buffer w curr_ind w 0) fun n =>
        match buffer[curr_ind]? with
        | none => .panicked
        | some should_recurse =>
          if should_recurse then
            DecodeOutcome.bind (decodeFuel w buffer fuel
                (curr_ind + 1 + w)) fun r0 =>
              DecodeOutcome.bind (decodeFuel w buffer fuel r0.2) fun r1 =>
                DecodeOutcome.bind (decodeFuel w buffer fuel r1.2) fun r2 =>
                  DecodeOutcome.bind (decodeFuel w buffer fuel r2.2)
                    fun r3 =>
                      .ok (.branch n r0.1 r1.1 r2.1 r3.1, r3.2)
          else .ok (.leaf n, curr_ind + 1 + w)

/-- The `decode_v1` entry point: the successful value is the decoded tree
and the index one past its last bit.  The fuel `buffer.length + 1` is never
exhausted on a path Rust completes (see `decodeFuel`). -/
def decode_v1 (buffer : List Bool) (w curr_ind : Nat) :
    DecodeOutcome (QuadtreeNode × Nat) :=
  decodeFuel w buffer (buffer.length + 1) curr_ind

/-- The child-color frequency list of `trim`: the Rust code folds the four
child colors into a `HashMap<color, count>` and collects its values. -/
def childFreqs (cols : List Nat) : List Nat :=
  cols.dedup.map fun c => cols.count c

/-- Models `QuadtreeNode::trim` (src/src/lib.rs): when `depth ≤ 0` and all
four children are leaves, drop the children exactly when the frequency list
has 3 entries, or 2 entries with maximum 3; otherwise recurse into the
children with `depth - 1` (so a node whose children are leaves but whose
colors fail the test is left unchanged — recursing into a leaf does
nothing). -/
def trim : QuadtreeNode → Int → QuadtreeNode
  | .leaf c, _ => .leaf c
  | .branch c s0 s1 s2 s3, depth =>
    if depth ≤ 0 ∧ (s0.isLeaf && s1.isLeaf && s2.isLeaf && s3.isLeaf) then
      let freq := childFreqs [s0.color, s1.color, s2.color, s3.color]
      if freq.length = 3 ∨ (freq.length = 2 ∧ freq.foldr max 0 = 3) then
        .leaf c
      else .branch c s0 s1 s2 s3
    else
      .branch c (trim s0 (depth - 1)) (trim s1 (depth - 1))
        (trim s2 (depth - 1)) (trim s3 (depth - 1))

/-- A square-capable RGBA pixel buffer, modelling `image::RgbaImage` as its
dimensions plus a pixel function. -/
structure ImageBuf where
  width : Nat
  height : Nat
  pix : Nat → Nat → Rgba

/-- Models `image::imageops::replace` of a `size × size` solid block of
color `c` at `(px, py)`: pixels are overwritten where the block overlaps
the buffer (the overlay is clipped at the buffer bounds). -/
def fillSquare (img : ImageBuf) (c : Rgba) (size px py : Nat) : ImageBuf :=
  { img with pix := fun x y =>
      if px ≤ x ∧ x < px + size ∧ x < img.width ∧
          py ≤ y ∧ y < py + size ∧ y < img.height then c
      else img.pix x y }

/-- Models one channel of `color_lerp` (src/src/node/image.rs).  The Rust
code computes `((b - a) * n + a)` in `f64` and truncates with `as u8`; it
is modelled with exact rationals and floor (equal to truncation on the
non-negative in-range values the lerp produces).  No property below
exercises this path; it is included so `to_image` is complete. -/
def chanLerp (a b : Nat) (n : ℚ) : Nat :=
  (Int.floor (((b : ℚ) - (a : ℚ)) * n + (a : ℚ))).toNat

/-- Models `color_lerp`, channel by channel. -/
def colorLerp (a b : Rgba) (n : ℚ) : Rgba :=
  ⟨chanLerp a.r b.r n, chanLerp a.g b.g n,
    chanLerp a.b b.b n, chanLerp a.a b.a n⟩

/-- Models the per-pixel bilinear loop of `to_image` in gradient mode: for
each pixel of the region, horizontal lerps between the first/second and
third/fourth child colors by the fractional x-position, then a vertical
lerp by the fractional y-position (`put_pixel`; it would panic outside the
buffer, which no square region drawn into a matching square buffer does). -/
def bilinearFill (img : ImageBuf) (c0 c1 c2 c3 : Rgba) (size px py : Nat) :
    ImageBuf :=
  { img with pix := fun x y =>
      if px ≤ x ∧ x < px + size ∧ py ≤ y ∧ y < py + size then
        let xn : ℚ := ((x - px : Nat) : ℚ) / (size : ℚ)
        let yn : ℚ := ((y - py : Nat) : ℚ) / (size : ℚ)
        colorLerp (colorLerp c0 c1 xn) (colorLerp c2 c3 xn) yn
      else img.pix x y }

/-- Models the body of `QuadtreeNode::to_image` (src/src/node/image.rs) for
an explicit region side `curr_size` and origin `curr_pos`.  `palette` is the
`Palette::to_rgba` method of the palette in use.  Each call checks that the
buffer is square with a power-of-two side and that the side is a power of
two, draws the node's color as a flat square, and for `curr_size > 1`
either rasterizes a bilinear gradient (gradient mode with four leaf
children) or recurses into the four quadrants with side `curr_size / 2`.
`fuel` only makes the recursion structural: `to_image` passes the region
side, the side at least halves at every recursion while the fuel drops by
one, and recursion requires `curr_size > 1`, so the zero-fuel arm (whose
value matches the power-of-two failure Rust reports for a zero side) is
unreachable through `to_image`. -/
def toImageAux (palette : Nat → Except Unit Rgba) (gradient : Bool) :
    Nat → QuadtreeNode → ImageBuf → Nat → Nat × Nat →
    Except DrawError ImageBuf
  | 0, _, _, _, _ => .error .nonPowerOfTwo
  | fuel + 1, t, img, curr_size, curr_pos =>
  if img.width ≠ img.height then .error .nonSquare
  else if ¬ isPow2 img.width = true ∨ ¬ isPow2 curr_size = true then
    .error .nonPowerOfTwo
  else
    match palette t.color with
    | .error _ => .error .colorOutOfRange
    | .ok c =>
      let img2 := fillSquare img c curr_size curr_pos.1 curr_pos.2
      if 1 < curr_size then
        match t with
        | .leaf _ => .ok img2
        | .branch _ s0 s1 s2 s3 =>
          if gradient = true ∧
              (s0.isLeaf && s1.isLeaf && s2.isLeaf && s3.isLeaf) = true
          then
            match palette s0.color, palette s1.color, palette s2.color,
                palette s3.color with
            | .ok c0, .ok c1, .ok c2, .ok c3 =>
              .ok (bilinearFill img2 c0 c1 c2 c3 curr_size
                curr_pos.1 curr_pos.2)
            | _, _, _, _ => .error .colorOutOfRange
          else do
            let i0 ← toImageAux palette gradient fuel s0 img2
              (curr_size / 2) (curr_pos.1, curr_pos.2)
            let i1 ← toImageAux palette gradient fuel s1 i0
              (curr_size / 2) (curr_pos.1 + curr_size / 2, curr_pos.2)
            let i2 ← toImageAux palette gradient fuel s2 i1
              (curr_size / 2) (curr_pos.1, curr_pos.2 + curr_size / 2)
            toImageAux palette gradient fuel s3 i2
              (curr_size / 2)
              (curr_pos.1 + curr_size / 2, curr_pos.2 + curr_size / 2)
      else .ok img2

/-- Models `QuadtreeNode::to_image` as called with `size` and `start_pos`
arguments (outside callers pass `None` for both).  A `Some` size must be a
power of two; the defaults are the buffer width and `(0, 0)`.  The body is
`toImageAux`: the aux re-runs the same pure validity checks its caller
already passed, which does not change any result, so the explicit-size
recursion of `toImageAux` is observably the recursion of the source. -/
def to_image (palette : Nat → Except Unit Rgba) (gradient : Bool)
    (t : QuadtreeNode) (img : ImageBuf) (size : Option Nat)
    (start_pos : Option (Nat × Nat)) : Except DrawError ImageBuf :=
  if img.width ≠ img.height then .error .nonSquare
  else if ¬ isPow2 img.width = true ∨
      ¬ (size.map isPow2).getD true = true then .error .nonPowerOfTwo
  else toImageAux palette gradient (size.getD img.width) t img
    (size.getD img.width) (start_pos.getD (0, 0))

/-- Models `Vec::resize(v, n, transparentBlack)`: truncate or pad with the
filler color. -/
def resizeTo (l : List Rgba) (n : Nat) : List Rgba :=
  l.take n ++ List.replicate (n - l.length) transparentBlack

/-- The meaningful entry count of `to_qti`
(src/src/node/qti.rs): `2^w` minus the run of trailing transparent-black
entries of the palette vector resized to `2^w` (the first operand of the
`cmp::max`).  `vec` is the palette's backing slice (`get_slice()`); every
palette the program builds returns one, so the `unwrap_or_else` fallback
for slice-less palettes is dead code here. -/
def meaningfulCount (w : Nat) (vec : List Rgba) : Nat :=
  2 ^ w -
    ((resizeTo vec (2 ^ w)).reverse.takeWhile
      fun c => decide (c = transparentBlack)).length

/-- The `palette_len` of `to_qti`:
`max(meaningful, (9 * (1 << w) + 15) / 16)` in `usize` (no overflow for any
`w ≤ 32`). -/
def paletteLen (w : Nat) (vec : List Rgba) : Nat :=
  max (meaningfulCount w vec) ((9 * 2 ^ w + 15) / 16)

/-- The `approx_len` of `to_qti` — the number of palette entries written
into the container.  The `f64` step `(palette_len * 16 / 2^w).ceil()` is
exact (all values are integers divided by a power of two with small
mantissas), hence the ceiling division; the subsequent `u32` product
`ceil * (1u32 << w)` wraps modulo `2^32` in a release build (a debug build
panics on the overflow — either behaviour falsifies the header bound for
`w ≥ 28`, and for `w ≤ 27` no overflow occurs). -/
def approxLen (w : Nat) (vec : List Rgba) : Nat :=
  (paletteLen w vec * 16 + 2 ^ w - 1) / 2 ^ w * 2 ^ w % 4294967296 / 16

/-- The stored-chunk count encoded into byte 7:
`(approx_len * 16) / (1u32 << w)` (the product cannot reach `2^32`). -/
def chunksOf (w : Nat) (vec : List Rgba) : Nat :=
  approxLen w vec * 16 / 2 ^ w

/-- Byte 7 of the container: `((chunks - 9) << 5) as u8 | (width - 1)`,
with the `u32` subtraction and shift wrapping modulo `2^32` and the `as u8`
cast truncating modulo `256` (a debug build panics when `chunks < 9`
instead; that happens only in the overflow region `w ≥ 28`). -/
def headerByte (w : Nat) (vec : List Rgba) : Nat :=
  (chunksOf w vec + 4294967296 - 9) % 4294967296 * 32 % 4294967296 % 256 |||
    (w - 1)

/-- The four bytes `extend_from_slice(&rgba.0)` writes for one entry. -/
def rgbaBytes (c : Rgba) : List Nat := [c.r, c.g, c.b, c.a]

/-- Value of one output byte of `BitVec<Msb0, u8>::as_slice()`: up to eight
bits, most significant first, zero-padded at the end. -/
def byteOfBits (bits : List Bool) : Nat :=
  (bits ++ List.replicate (8 - bits.length) false).foldl
    (fun acc b => 2 * acc + (if b then 1 else 0)) 0

/-- Byte-packing loop of `bitsToBytes`; `fuel` only makes the recursion
structural and is never exhausted for the fuel `bitsToBytes` supplies. -/
def bitsToBytesAux : Nat → List Bool → List Nat
  | 0, _ => []
  | _, [] => []
  | fuel + 1, x :: rest =>
    byteOfBits ((x :: rest).take 8) :: bitsToBytesAux fuel (rest.drop 7)

/-- Models `BitVec<Msb0, u8>::as_slice()`: the bit stream packed into
bytes, most significant bit first, the final partial byte zero-padded
(each step consumes eight bits, so `l.length` steps always suffice). -/
def bitsToBytes (l : List Bool) : List Nat := bitsToBytesAux l.length l

/-- The bytes of the magic string `QuTrIm`. -/
def magicBytes : List Nat := [0x51, 0x75, 0x54, 0x72, 0x49, 0x6d]

/-- Models `QuadtreeNode::to_qti` (src/src/node/qti.rs) for a palette of
width `w` whose `get_slice()` is `vec`: magic and version byte, the
palette-header byte, `approx_len` palette entries (`to_rgba(c)` equals
`vec[c]` with transparent-black beyond the stored entries for every
repository palette, and the `unwrap` never panics since `c < 2^w`), then
the encoded quadtree, byte-aligned. -/
def to_qti (w : Nat) (vec : List Rgba) (t : QuadtreeNode) :
    Except EncodeError (List Nat) := do
  let bits ← encode_v1 w t []
  .ok (magicBytes ++ [1] ++ [headerByte w vec] ++
    ((List.range (approxLen w vec)).flatMap fun c =>
      rgbaBytes (vec.getD c transparentBlack)) ++
    bitsToBytes bits)

/-- The palette width `pal_size = (source[7] & 0x1f) + 1` of `from_qti`. -/
def palSizeOf (b7 : Nat) : Nat := (b7 &&& 0x1f) + 1

/-- The stored-entry count `pal_len` of `from_qti`: the exact value of the
`f64` expression `((source[7] >> 5) + 9.) * exp2(pal_size - 4.)` truncated
by `as u32` (each intermediate `f64` value is exactly representable, and a
negative or oversized result saturates — only the upper saturation is
reachable, at `pal_size = 32` with chunk 7). -/
def palLenOf (b7 : Nat) : Nat :=
  min ((b7 >>> 5 + 9) * 2 ^ palSizeOf b7 / 16) 4294967295

/-- The eight bits of one byte, most significant first (`Msb0`). -/
def byteBits (b : Nat) : List Bool :=
  (List.range 8).map fun i => decide (b &&& (1 <<< (7 - i)) ≠ 0)

/-- Models `BitVec<Msb0, u8>::from(&[u8])`: every byte contributes its
eight bits, most significant first. -/
def bytesToBits (l : List Nat) : List Bool := l.flatMap byteBits

/-- Models `QuadtreeNode::<DynamicPaletteView>::from_qti`
(src/src/node/qti.rs); `DynamicPaletteView` is the program's only
`DynamicPalette`.  Byte reads `source[i]` beyond the buffer are Rust
panics.  `pal_len` reproduces the `f64` computation
`((source[7] >> 5) + 9.) * exp2(pal_size - 4.)` truncated by `as u32`
(exactly the integer `(chunk + 9) * 2^pal_size / 16`, saturated at
`u32::MAX`, since every intermediate `f64` value is exact); the
`assert!(pal_len.count_ones() <= 4)` failure is a panic.  The decoded
palette is the extracted entries resized to `2^pal_size`, and its
`DynamicPaletteView` width is `pal_size`; when `pal_size = 32` the `u32`
length wraps to zero and the width computation underflows inside the
version branches (a debug panic), modelled as `panicked`. -/
def from_qti (source : List Nat) :
    DecodeOutcome (QuadtreeNode × List Rgba) :=
  if source.length < 6 then .panicked
  else if source.take 6 ≠ magicBytes then .err .missingHeader
  else
    match source[7]? with
    | none => .panicked
    | some b7 =>
      let pal_size := palSizeOf b7
      let pal_len := palLenOf b7
      if 4 < popCount pal_len then .panicked
      else if source.length < 8 + 4 * pal_len then .panicked
      else
        let pal := (List.range pal_len).map fun n =>
          Rgba.mk (source.getD (n * 4 + 8) 0) (source.getD (n * 4 + 9) 0)
            (source.getD (n * 4 + 10) 0) (source.getD (n * 4 + 11) 0)
        let palette := pal.take (2 ^ pal_size) ++
          List.replicate (2 ^ pal_size - pal.length) transparentBlack
        let tree_bits := bytesToBits (source.drop (8 + 4 * pal_len))
        match source[6]? with
        | none => .panicked
        | some 1 =>
          if pal_size = 32 then .panicked
          else
            DecodeOutcome.bind (decode_v1 tree_bits pal_size 0) fun r =>
              .ok (r.1, palette)
        | some 2 =>
          if pal_size = 32 then .panicked
          else .err .insufficientData
        | some _ => .err .missingHeader

/-- The `u32` value `1 << w` is `2 ^ w` for every width up to 31. -/
theorem oneShl32_eq {w : Nat} (h : w ≤ 31) : oneShl32 w = 2 ^ w := by
  unfold oneShl32
  rw [Nat.mod_eq_of_lt (by omega), Nat.shiftLeft_eq, one_mul]

/-- `popCountAux` of zero is zero for any fuel. -/
theorem popCountAux_zero : ∀ fuel, popCountAux fuel 0 = 0 := by
  intro fuel
  cases fuel <;> rfl

/-- A power of two has a single set bit, with any sufficient fuel. -/
theorem popCountAux_two_pow :
    ∀ (m fuel : Nat), 2 ^ m ≤ fuel → popCountAux fuel (2 ^ m) = 1 := by
  intro m
  induction m with
  | zero =>
    intro fuel hf
    obtain ⟨f, rfl⟩ : ∃ f, fuel = f + 1 := ⟨fuel - 1, by omega⟩
    rw [popCountAux]
    norm_num [popCountAux_zero]
  | succ m ih =>
    intro fuel hf
    have hpow : 2 ≤ 2 ^ (m + 1) := by
      have := Nat.one_le_two_pow (n := m)
      rw [Nat.pow_succ]
      omega
    obtain ⟨f, rfl⟩ : ∃ f, fuel = f + 1 := ⟨fuel - 1, by omega⟩
    rw [popCountAux]
    have h0 : ¬ 2 ^ (m + 1) = 0 := by positivity
    rw [if_neg h0]
    have h2 : 2 ^ (m + 1) % 2 = 0 := by
      simp [Nat.pow_succ, Nat.mul_mod_left]
    have hdiv : 2 ^ (m + 1) / 2 = 2 ^ m := by
      rw [Nat.pow_succ, Nat.mul_div_cancel]
      norm_num
    rw [h2, hdiv, ih f (by
      have h3 : 2 * 2 ^ m ≤ 2 ^ (m + 1) := by
        rw [Nat.pow_succ]
        omega
      have h4 := Nat.one_le_two_pow (n := m)
      omega)]

/-- `isPow2` holds on every power of two. -/
theorem isPow2_two_pow (m : Nat) : isPow2 (2 ^ m) = true := by
  unfold isPow2 popCount
  rw [popCountAux_two_pow m (2 ^ m) le_rfl]
  rfl

/-- Trailing-zero count of a power of two, with any sufficient fuel. -/
theorem trailingZerosAux_two_pow :
    ∀ (m fuel : Nat), 2 ^ m ≤ fuel →
      trailingZerosAux fuel (2 ^ m) = m := by
  intro m
  induction m with
  | zero =>
    intro fuel hf
    obtain ⟨f, rfl⟩ : ∃ f, fuel = f + 1 := ⟨fuel - 1, by omega⟩
    rw [trailingZerosAux]
    norm_num
  | succ m ih =>
    intro fuel hf
    have hpow : 2 ≤ 2 ^ (m + 1) := by
      have := Nat.one_le_two_pow (n := m)
      rw [Nat.pow_succ]
      omega
    obtain ⟨f, rfl⟩ : ∃ f, fuel = f + 1 := ⟨fuel - 1, by omega⟩
    rw [trailingZerosAux]
    have h2 : 2 ^ (m + 1) % 2 = 0 := by
      simp [Nat.pow_succ, Nat.mul_mod_left]
    have h0 : ¬ 2 ^ (m + 1) = 0 := by positivity
    rw [if_neg h0, if_pos h2]
    have hdiv : 2 ^ (m + 1) / 2 = 2 ^ m := by
      rw [Nat.pow_succ, Nat.mul_div_cancel]
      norm_num
    rw [hdiv, ih f (by
      have h3 : 2 * 2 ^ m ≤ 2 ^ (m + 1) := by
        rw [Nat.pow_succ]
        omega
      have h4 := Nat.one_le_two_pow (n := m)
      omega)]

/-- Trailing-zero count of a power of two. -/
theorem trailingZeros_two_pow (m : Nat) : trailingZeros (2 ^ m) = m :=
  trailingZerosAux_two_pow m (2 ^ m) le_rfl

/-- `abundanceSort` of a nonempty constant list. -/
theorem abundanceSort_replicate {n : Nat} (hn : 0 < n) (c : Nat) :
    abundanceSort (List.replicate n c) = [(n, c)] := by
  have hd : (List.replicate n c).dedup = [c] := by
    induction n with
    | zero => omega
    | succ k ih =>
      rcases Nat.eq_zero_or_pos k with hk | hk
      · subst hk; simp [List.dedup]
      · rw [List.replicate_succ, List.dedup_cons_of_mem (by
          simp [List.mem_replicate]; omega), ih hk]
  unfold abundanceSort
  rw [hd]
  simp [List.insertionSort, List.orderedInsert, List.count_replicate]

/-- `abundanceSort` of a singleton window. -/
theorem abundanceSort_singleton (c : Nat) : abundanceSort [c] = [(1, c)] := by
  have := abundanceSort_replicate (n := 1) (by norm_num) c
  simpa using this

/-- Unfolded form of `mount` on a single-pixel grid: the pixel becomes the
node color, validated against `1 << w`. -/
theorem mount_singleton (c w s : Nat) (g : Bool) :
    mount [c] w s g =
      if c > oneShl32 w then .error .colorOutOfRange
      else .ok (.leaf c) := by
  have hpow : isPow2 (1 : Nat) = true := by simpa using isPow2_two_pow 0
  have htz : trailingZeros 1 = 0 := by simpa using trailingZeros_two_pow 0
  have hshift : (1 : Nat) >>> ((0 : Nat) >>> 1) = 1 := rfl
  have hwin : windowPixels [c] 1 0 0 1 = [c] := by
    unfold windowPixels
    simp [List.range_succ, List.flatMap_append, List.flatMap_cons,
      List.flatMap_nil]
  have hdom : dominantPair [c] = (1, c) := by
    unfold dominantPair
    rw [abundanceSort_singleton]
  unfold mount
  simp only [List.length_singleton, htz]
  rw [if_neg (by simp [hpow])]
  simp only [hshift]
  rw [mountAux_eq [c] 1 w s g 1 1 0 0 (by norm_num), hwin, hdom]
  simp only [Prod.fst, Prod.snd]
  rcases Nat.lt_or_ge (oneShl32 w) c with hlt | hle
  · rw [if_pos hlt, if_pos hlt]
  · rw [if_neg (by omega), if_neg (by omega), if_neg (by omega)]

/-- C10: mount's per-node color validation accepts the boundary index
`2 ^ w` exactly — it fails with `ColorOutOfRange` only for selected colors
strictly greater than `2 ^ w` — while `encode_v1` rejects every node color
greater than or equal to `2 ^ w`; consequently a grid whose dominant color
is exactly `2 ^ w` mounts successfully, yet `encode_v1` on the resulting
tree fails with `ColorOutOfRange`. -/
theorem c10_mount_encode_boundary (w s c : Nat) (g : Bool)
    (hw : 1 ≤ w) (hw31 : w ≤ 31) :
    (mount [c] w s g = .ok (.leaf c) ↔ c ≤ 2 ^ w) ∧
    (mount [c] w s g = .error .colorOutOfRange ↔ 2 ^ w < c) ∧
    (encode_v1 w (.leaf c) [] = .error .colorOutOfRange ↔ 2 ^ w ≤ c) ∧
    (mount [2 ^ w] w s g = .ok (.leaf (2 ^ w)) ∧
      encode_v1 w (.leaf (2 ^ w)) [] = .error .colorOutOfRange) := by
  have hs := oneShl32_eq hw31
  have hm := mount_singleton c w s g
  have hm2 := mount_singleton (2 ^ w) w s g
  rw [hs] at hm hm2
  refine ⟨?_, ?_, ?_, ?_, ?_⟩
  · rw [hm]
    constructor
    · intro h
      by_contra hc
      rw [if_pos (by omega)] at h
      exact absurd h (by simp)
    · intro h
      rw [if_neg (by omega)]
  · rw [hm]
    constructor
    · intro h
      by_contra hc
      rw [if_neg (by omega)] at h
      exact absurd h (by simp)
    · intro h
      rw [if_pos (by omega)]
  · rw [encode_v1, hs]
    constructor
    · intro h
      by_contra hc
      rw [if_neg (by omega)] at h
      exact absurd h (by simp)
    · intro h
      rw [if_pos (by omega)]
  · rw [hm2, if_neg (by omega)]
  · rw [encode_v1, hs, if_pos (by omega)]

/-- Witness for C10 at width 1: the grid `[2]` mounts to a single leaf of
color `2 = 2 ^ 1`, which `encode_v1` refuses to encode. -/
theorem c10_mount_encode_boundary_witness :
    mount [2 ^ 1] 1 16384 false = .ok (.leaf (2 ^ 1)) ∧
    encode_v1 1 (.leaf (2 ^ 1)) [] = .error .colorOutOfRange :=
  (c10_mount_encode_boundary 1 16384 2 false (by norm_num)
    (by norm_num)).2.2.2

/-- C4 (amended): a buffer of at least six bytes that does not begin with
the magic fails with `MissingHeader` (and in particular no tree is
returned); buffers shorter than six bytes instead panic on the
`&source[..6]` slice, which is the counterexample to the claim as
stated. -/
theorem c4_missing_magic (source : List Nat)
    (h6 : 6 ≤ source.length) (hm : source.take 6 ≠ magicBytes) :
    from_qti source = .err .missingHeader := by
  unfold from_qti
  rw [if_neg (by omega), if_pos hm]

/-- Witness for C4: an all-zero six-byte buffer is rejected with
`MissingHeader`. -/
theorem c4_missing_magic_witness :
    from_qti [0, 0, 0, 0, 0, 0] = .err .missingHeader :=
  c4_missing_magic [0, 0, 0, 0, 0, 0] (by norm_num) (by decide)

/-- Counterexample to C4 as stated: on the empty buffer (which does not
begin with the magic), `from_qti` panics on the out-of-range slice
`&source[..6]` instead of returning the `MissingHeader` error. -/
theorem c4_empty_buffer_panics :
    from_qti [] = .panicked ∧
    from_qti [] ≠ .err .missingHeader := by
  exact ⟨rfl, by decide⟩

/-- The trim condition `freq.len() == 2 && max(freq) == 3` says exactly
that some color occurs three times, once the four colors have two distinct
values: the two multiplicities sum to four, so the maximum is 3 exactly
when one of them is 3 (a 3-to-1 split). -/
theorem freq_max_three (l : List Nat) (h4 : l.length = 4)
    (h2 : l.dedup.length = 2) :
    (childFreqs l).foldr max 0 = 3 ↔ ∃ x ∈ l, l.count x = 3 := by
  obtain ⟨u, v, huv⟩ := List.length_eq_two.mp h2
  have hfreq : childFreqs l = [l.count u, l.count v] := by
    unfold childFreqs
    rw [huv]
    simp
  have hsum : (childFreqs l).sum = 4 := by
    unfold childFreqs
    rw [List.sum_map_count_dedup_eq_length, h4]
  have humem : u ∈ l := List.mem_dedup.mp (by rw [huv]; simp)
  have hvmem : v ∈ l := List.mem_dedup.mp (by rw [huv]; simp)
  have hcu : 0 < l.count u := List.count_pos_iff.mpr humem
  have hcv : 0 < l.count v := List.count_pos_iff.mpr hvmem
  rw [hfreq] at hsum ⊢
  simp only [List.sum_cons, List.sum_nil] at hsum
  simp only [List.foldr]
  constructor
  · intro hmax
    rcases le_or_lt (l.count u) (l.count v) with hle | hlt
    · exact ⟨v, hvmem, by omega⟩
    · exact ⟨u, humem, by omega⟩
  · rintro ⟨x, hxl, hx3⟩
    have hxd : x ∈ l.dedup := List.mem_dedup.mpr hxl
    rw [huv] at hxd
    simp only [List.mem_cons, List.mem_singleton,
      List.not_mem_nil, or_false] at hxd
    rcases hxd with rfl | rfl <;> omega

/-- Bridge between the code's collapse condition (frequency-list length and
maximum) and the claim's phrasing (distinct values and a 3-to-1 split). -/
theorem trim_cond_iff (a0 a1 a2 a3 : Nat) :
    ((childFreqs [a0, a1, a2, a3]).length = 3 ∨
        ((childFreqs [a0, a1, a2, a3]).length = 2 ∧
          (childFreqs [a0, a1, a2, a3]).foldr max 0 = 3)) ↔
      ([a0, a1, a2, a3].dedup.length = 3 ∨
        ([a0, a1, a2, a3].dedup.length = 2 ∧
          ∃ x ∈ [a0, a1, a2, a3], [a0, a1, a2, a3].count x = 3)) := by
  have hlen : (childFreqs [a0, a1, a2, a3]).length =
      [a0, a1, a2, a3].dedup.length := by
    unfold childFreqs
    rw [List.length_map]
  rw [hlen]
  constructor
  · rintro (h | ⟨h2, hm⟩)
    · exact Or.inl h
    · exact Or.inr ⟨h2, (freq_max_three [a0, a1, a2, a3] rfl h2).mp hm⟩
  · rintro (h | ⟨h2, hx⟩)
    · exact Or.inl h
    · exact Or.inr ⟨h2, (freq_max_three [a0, a1, a2, a3] rfl h2).mpr hx⟩

/-- C8: with non-positive remaining depth and four leaf children, `trim`
removes the children (keeping the parent's color) exactly when the four
child colors have three distinct values, or two distinct values with some
color occurring three times (a 3-to-1 split); in every other case the
children are kept and trim recurses into them with `depth - 1` (which
leaves the leaves unchanged). -/
theorem c8_trim_collapse (c a0 a1 a2 a3 : Nat) (depth : Int)
    (hd : depth ≤ 0) :
    trim (.branch c (.leaf a0) (.leaf a1) (.leaf a2) (.leaf a3)) depth =
      if [a0, a1, a2, a3].dedup.length = 3 ∨
          ([a0, a1, a2, a3].dedup.length = 2 ∧
            ∃ x ∈ [a0, a1, a2, a3], [a0, a1, a2, a3].count x = 3) then
        .leaf c
      else
        .branch c (trim (.leaf a0) (depth - 1)) (trim (.leaf a1) (depth - 1))
          (trim (.leaf a2) (depth - 1))
          (trim (.leaf a3) (depth - 1)) := by
  simp only [trim, QuadtreeNode.isLeaf, QuadtreeNode.color, Bool.and_self,
    and_true, true_and]
  rw [if_pos hd]
  by_cases hP : [a0, a1, a2, a3].dedup.length = 3 ∨
      ([a0, a1, a2, a3].dedup.length = 2 ∧
        ∃ x ∈ [a0, a1, a2, a3], [a0, a1, a2, a3].count x = 3)
  · rw [if_pos ((trim_cond_iff a0 a1 a2 a3).mpr hP), if_pos hP]
  · rw [if_neg (fun hc => hP ((trim_cond_iff a0 a1 a2 a3).mp hc)),
      if_neg hP]

/-- Witness for C8: a 3-to-1 split (colors 1,1,1,2) collapses into the
parent leaf at depth 0. -/
theorem c8_trim_collapse_witness :
    trim (.branch 7 (.leaf 1) (.leaf 1) (.leaf 1) (.leaf 2)) 0 =
      .leaf 7 := by
  rw [c8_trim_collapse 7 1 1 1 2 0 (by norm_num)]
  decide

/-- When exactly `w` bits remain (`buffer.length = curr + w`), the color
loop reads one bit past the end of the buffer and panics. -/
theorem readColorLoop_oob {buffer : List Bool} {w curr : Nat}
    (hlen : buffer.length = curr + w) :
    ∀ k, 1 ≤ k → k ≤ w → ∀ acc,
      readColorLoop buffer w curr k acc = .panicked := by
  intro k
  induction k with
  | zero => omega
  | succ k ih =>
    intro _ hkw acc
    rw [readColorLoop]
    rcases Nat.eq_zero_or_pos k with hk0 | hkpos
    · subst hk0
      have hidx : curr + (w - 1) + 1 = buffer.length := by omega
      rw [List.getElem?_eq_none (by omega)]
    · have hidx : curr + (w - (k + 1)) + 1 < buffer.length := by omega
      rw [List.getElem?_eq_getElem hidx]
      exact ih hkpos (by omega) _

/-- C6 (amended): `decode_v1` returns `InsufficientData` exactly when
strictly fewer than `w` bits remain at `curr_ind` (with
`curr_ind ≤ buffer.len()`); when exactly `w` bits remain it panics on an
out-of-bounds bit index instead, and when `curr_ind` exceeds the buffer
length the `usize` subtraction in the length check panics.  In every case
with fewer than `1 + w` bits remaining it never returns `Ok`. -/
theorem c6_insufficient_data (buffer : List Bool) (w curr : Nat)
    (hw : 1 ≤ w) (hw32 : w ≤ 32) :
    (curr ≤ buffer.length → buffer.length - curr < w →
      decode_v1 buffer w curr = .err .insufficientData) ∧
    (buffer.length = curr + w → decode_v1 buffer w curr = .panicked) ∧
    (buffer.length < curr → decode_v1 buffer w curr = .panicked) ∧
    (buffer.length < curr + 1 + w →
      ∀ r, decode_v1 buffer w curr ≠ .ok r) := by
  have hunfold : decode_v1 buffer w curr =
      decodeFuel w buffer (buffer.length + 1) curr := rfl
  refine ⟨?_, ?_, ?_, ?_⟩
  · intro hle hlt
    rw [hunfold, decodeFuel, if_neg (by omega), if_pos hlt]
  · intro hlen
    rw [hunfold, decodeFuel, if_neg (by omega), if_neg (by omega)]
    rw [readColorLoop_oob hlen w hw le_rfl 0]
    rfl
  · intro hlt
    rw [hunfold, decodeFuel, if_pos hlt]
  · intro hshort r
    rcases Nat.lt_or_ge buffer.length curr with hlt | hge
    · rw [hunfold, decodeFuel, if_pos hlt]
      simp
    · rcases Nat.lt_or_ge (buffer.length - curr) w with hlt2 | hge2
      · rw [hunfold, decodeFuel, if_neg (by omega), if_pos hlt2]
        simp
      · have hlen : buffer.length = curr + w := by omega
        rw [hunfold, decodeFuel, if_neg (by omega), if_neg (by omega)]
        rw [readColorLoop_oob hlen w hw le_rfl 0]
        simp [DecodeOutcome.bind]

/-- Counterexample to C6 as stated: with exactly `w` bits remaining
(a one-bit buffer at width 1), `decode_v1` panics on the out-of-range bit
index `curr_ind + w` instead of returning `InsufficientData`. -/
theorem c6_exact_width_panics :
    decode_v1 [false] 1 0 = .panicked ∧
    decode_v1 [false] 1 0 ≠ .err .insufficientData := by decide

/-- Witness for C6 at a concrete short buffer: two bits at width 3 yield
`InsufficientData`, and one bit at width 1 panics. -/
theorem c6_insufficient_data_witness :
    ((0 ≤ [false, true].length → [false, true].length - 0 < 3 →
        decode_v1 [false, true] 3 0 = .err .insufficientData) ∧
      ([false, true].length = 0 + 3 →
        decode_v1 [false, true] 3 0 = .panicked) ∧
      ([false, true].length < 0 → decode_v1 [false, true] 3 0 = .panicked) ∧
      ([false, true].length < 0 + 1 + 3 →
        ∀ r, decode_v1 [false, true] 3 0 ≠ .ok r)) :=
  c6_insufficient_data [false, true] 3 0 (by norm_num) (by norm_num)

/-- Length of the color field. -/
theorem colorBits_length (w c : Nat) : (colorBits w c).length = w := by
  unfold colorBits
  simp

/-- With the colors in range, `encode_v1` succeeds and appends exactly
`encBits`. -/
theorem encode_v1_eq_encBits {w : Nat} (hw31 : w ≤ 31) :
    ∀ (t : QuadtreeNode) (buffer : List Bool), allColorsLt w t = true →
      encode_v1 w t buffer = .ok (buffer ++ encBits w t) := by
  intro t
  induction t with
  | leaf c =>
    intro buffer hcol
    rw [allColorsLt] at hcol
    rw [encode_v1, if_neg (by
      rw [oneShl32_eq hw31]
      simpa using hcol)]
    rfl
  | branch c s0 s1 s2 s3 ih0 ih1 ih2 ih3 =>
    intro buffer hcol
    rw [allColorsLt] at hcol
    simp only [Bool.and_eq_true, decide_eq_true_eq] at hcol
    obtain ⟨⟨⟨⟨hc, h0⟩, h1⟩, h2⟩, h3⟩ := hcol
    rw [encode_v1, if_neg (by rw [oneShl32_eq hw31]; omega)]
    simp only [bind, Except.bind, ih0 _ h0, ih1 _ h1, ih2 _ h2, ih3 _ h3]
    simp [encBits, List.append_assoc]

/-- Each node contributes `1 + w` bits to the encoding. -/
theorem encBits_length (w : Nat) :
    ∀ t : QuadtreeNode, (encBits w t).length = (1 + w) * t.size := by
  intro t
  induction t with
  | leaf c =>
    simp [encBits, QuadtreeNode.size, colorBits_length]
    ring
  | branch c s0 s1 s2 s3 ih0 ih1 ih2 ih3 =>
    simp only [encBits, QuadtreeNode.size, List.length_append,
      List.length_cons, colorBits_length, ih0, ih1, ih2, ih3]
    ring

/-- Reading back the big-endian color field written by `encode_v1`: with
`k` loop iterations left, the accumulator gains exactly the low `k` bits of
the color. -/
theorem readColorLoop_reads (w c : Nat) (pre rest : List Bool)
    (flag : Bool) :
    ∀ k, k ≤ w → ∀ acc,
      readColorLoop (pre ++ flag :: (colorBits w c ++ rest)) w
        pre.length k acc = .ok (acc ||| c % 2 ^ k) := by
  intro k
  induction k with
  | zero =>
    intro _ acc
    rw [readColorLoop]
    simp [Nat.mod_one]
  | succ k ih =>
    intro hkw acc
    have hbit : w - (k + 1) < w := by omega
    have hwk : w - (w - (k + 1)) - 1 = k := by omega
    have hlook :
        (pre ++ flag :: (colorBits w c ++ rest))[pre.length +
            (w - (k + 1)) + 1]? =
          some (decide (c &&& 1 <<< k ≠ 0)) := by
      rw [List.getElem?_append_right (by omega)]
      have hsub : pre.length + (w - (k + 1)) + 1 - pre.length =
          (w - (k + 1)) + 1 := by omega
      rw [hsub, List.getElem?_cons_succ,
        List.getElem?_append_left (by rw [colorBits_length]; omega)]
      unfold colorBits
      rw [List.getElem?_map, List.getElem?_range hbit]
      simp [hwk]
    rw [readColorLoop]
    simp only [hlook, hwk]
    rw [ih (by omega)]
    have h2k : (1 : Nat) <<< k = 2 ^ k := by
      rw [Nat.shiftLeft_eq, one_mul]
    have hval : ((if decide (c &&& 1 <<< k ≠ 0) then 1 else 0) <<< k)
        = c &&& 2 ^ k := by
      rw [h2k, Nat.and_two_pow]
      by_cases ht : c.testBit k
      · simp [ht, Nat.shiftLeft_eq]
      · simp [ht]
    rw [hval]
    congr 1
    rw [Nat.lor_assoc]
    congr 1
    rw [Nat.and_two_pow,
      Nat.mul_comm ((c.testBit k).toNat) (2 ^ k),
      ← Nat.mul_add_lt_is_or (Nat.mod_lt c (Nat.pos_pow_of_pos k
        (by norm_num))) ((c.testBit k).toNat)]
    rw [Nat.pow_succ, Nat.mod_mul]
    have htb : (c.testBit k).toNat = c / 2 ^ k % 2 := by
      rw [Nat.testBit_to_div_mod]
      rcases Nat.mod_two_eq_zero_or_one (c / 2 ^ k) with hm | hm <;>
        simp [hm]
    rw [htb]
    exact Nat.add_comm _ _

/-- Positivity of the node count. -/
theorem QuadtreeNode.size_pos (t : QuadtreeNode) : 0 < t.size := by
  cases t <;> simp [QuadtreeNode.size]

/-- Decoding at the start of the exact bits `encode_v1` wrote for a tree
reconstructs that tree and advances the index by the encoding length, for
any fuel of at least the node count. -/
theorem decodeFuel_encBits {w : Nat} (hw31 : w ≤ 31) :
    ∀ (t : QuadtreeNode) (fuel : Nat) (pre rest : List Bool),
      allColorsLt w t = true → t.size ≤ fuel →
      decodeFuel w (pre ++ (encBits w t ++ rest)) fuel pre.length =
        .ok (t, pre.length + (encBits w t).length) := by
  intro t
  induction t with
  | leaf c =>
    intro fuel pre rest hcol hfuel
    rw [allColorsLt, decide_eq_true_eq] at hcol
    cases fuel with
    | zero => simp [QuadtreeNode.size] at hfuel
    | succ f =>
      have hshape : encBits w (QuadtreeNode.leaf c) ++ rest =
          false :: (colorBits w c ++ rest) := by
        simp [encBits]
      rw [hshape]
      have hlen : (pre ++ false :: (colorBits w c ++ rest)).length =
          pre.length + (1 + (w + rest.length)) := by
        simp [colorBits_length]
        try omega
      rw [decodeFuel]
      rw [if_neg (by rw [hlen]; omega), if_neg (by rw [hlen]; omega)]
      rw [readColorLoop_reads w c pre rest false w le_rfl 0]
      rw [Nat.zero_or, Nat.mod_eq_of_lt hcol]
      simp only [DecodeOutcome.bind]
      rw [List.getElem?_append_right (le_refl pre.length), Nat.sub_self,
        List.getElem?_cons_zero]
      simp only [Bool.false_eq_true, if_false]
      have harith : pre.length + 1 + w =
          pre.length + (encBits w (QuadtreeNode.leaf c)).length := by
        simp [encBits, colorBits_length]
        try omega
      rw [harith]
  | branch c s0 s1 s2 s3 ih0 ih1 ih2 ih3 =>
    intro fuel pre rest hcol hfuel
    rw [allColorsLt] at hcol
    simp only [Bool.and_eq_true, decide_eq_true_eq] at hcol
    obtain ⟨⟨⟨⟨hc, h0⟩, h1⟩, h2⟩, h3⟩ := hcol
    cases fuel with
    | zero => simp [QuadtreeNode.size] at hfuel
    | succ f =>
      simp only [QuadtreeNode.size] at hfuel
    -- fuel for each child
      have hf0 : s0.size ≤ f := by
        have := s1.size_pos
        have := s2.size_pos
        have := s3.size_pos
        omega
      have hf1 : s1.size ≤ f := by
        have := s0.size_pos
        have := s2.size_pos
        have := s3.size_pos
        omega
      have hf2 : s2.size ≤ f := by
        have := s0.size_pos
        have := s1.size_pos
        have := s3.size_pos
        omega
      have hf3 : s3.size ≤ f := by
        have := s0.size_pos
        have := s1.size_pos
        have := s2.size_pos
        omega
      have hshape : encBits w (QuadtreeNode.branch c s0 s1 s2 s3) ++ rest =
          true :: (colorBits w c ++ (encBits w s0 ++ (encBits w s1 ++
            (encBits w s2 ++ (encBits w s3 ++ rest))))) := by
        simp [encBits, List.append_assoc]
      rw [hshape]
      have hlen : (pre ++ true :: (colorBits w c ++ (encBits w s0 ++
          (encBits w s1 ++ (encBits w s2 ++
            (encBits w s3 ++ rest)))))).length =
          pre.length + (1 + (w + ((encBits w s0).length +
            ((encBits w s1).length + ((encBits w s2).length +
              ((encBits w s3).length + rest.length)))))) := by
        simp [colorBits_length]
        try omega
      rw [decodeFuel]
      rw [if_neg (by rw [hlen]; omega), if_neg (by rw [hlen]; omega)]
      rw [readColorLoop_reads w c pre _ true w le_rfl 0]
      rw [Nat.zero_or, Nat.mod_eq_of_lt hc]
      simp only [DecodeOutcome.bind]
      rw [List.getElem?_append_right (le_refl pre.length), Nat.sub_self,
        List.getElem?_cons_zero]
      simp only [if_true]
      have hb0 : pre ++ true :: (colorBits w c ++ (encBits w s0 ++
          (encBits w s1 ++ (encBits w s2 ++ (encBits w s3 ++ rest))))) =
          (pre ++ true :: colorBits w c) ++ (encBits w s0 ++
            (encBits w s1 ++ (encBits w s2 ++ (encBits w s3 ++ rest)))) := by
        simp [List.append_assoc]
      have hl0 : pre.length + 1 + w = (pre ++ true :: colorBits w c).length := by
        simp [colorBits_length]
        omega
      rw [hl0, hb0, ih0 f _ _ h0 hf0]
      simp only [DecodeOutcome.bind]
      have hb1 : (pre ++ true :: colorBits w c) ++ (encBits w s0 ++
          (encBits w s1 ++ (encBits w s2 ++ (encBits w s3 ++ rest)))) =
          ((pre ++ true :: colorBits w c) ++ encBits w s0) ++
            (encBits w s1 ++ (encBits w s2 ++ (encBits w s3 ++ rest))) := by
        simp [List.append_assoc]
      have hl1 : (pre ++ true :: colorBits w c).length +
          (encBits w s0).length =
          ((pre ++ true :: colorBits w c) ++ encBits w s0).length := by
        simp
        try omega
      rw [hl1, hb1, ih1 f _ _ h1 hf1]
      simp only [DecodeOutcome.bind]
      have hb2 : ((pre ++ true :: colorBits w c) ++ encBits w s0) ++
          (encBits w s1 ++ (encBits w s2 ++ (encBits w s3 ++ rest))) =
          (((pre ++ true :: colorBits w c) ++ encBits w s0) ++
            encBits w s1) ++
            (encBits w s2 ++ (encBits w s3 ++ rest)) := by
        simp [List.append_assoc]
      have hl2 : ((pre ++ true :: colorBits w c) ++ encBits w s0).length +
          (encBits w s1).length =
          (((pre ++ true :: colorBits w c) ++ encBits w s0) ++
            encBits w s1).length := by
        simp
        try omega
      rw [hl2, hb2, ih2 f _ _ h2 hf2]
      simp only [DecodeOutcome.bind]
      have hb3 : (((pre ++ true :: colorBits w c) ++ encBits w s0) ++
          encBits w s1) ++ (encBits w s2 ++ (encBits w s3 ++ rest)) =
          ((((pre ++ true :: colorBits w c) ++ encBits w s0) ++
            encBits w s1) ++ encBits w s2) ++ (encBits w s3 ++ rest) := by
        simp [List.append_assoc]
      have hl3 : (((pre ++ true :: colorBits w c) ++ encBits w s0) ++
          encBits w s1).length + (encBits w s2).length =
          ((((pre ++ true :: colorBits w c) ++ encBits w s0) ++
            encBits w s1) ++ encBits w s2).length := by
        simp
        try omega
      rw [hl3, hb3, ih3 f _ _ h3 hf3]
      simp only [DecodeOutcome.bind]
      have harith : ((((pre ++ true :: colorBits w c) ++ encBits w s0) ++
            encBits w s1) ++ encBits w s2).length +
          (encBits w s3).length =
          pre.length +
            (encBits w (QuadtreeNode.branch c s0 s1 s2 s3)).length := by
        simp [encBits, colorBits_length, List.length_append]
        try omega
      rw [harith]


/-- C1 (amended): for every palette width `1 ≤ w ≤ 31` and every tree whose
node colors are all strictly below `2 ^ w` (each branch has exactly four
children by the type), `encode_v1` from an empty buffer succeeds, and
`decode_v1` over the produced bits starting at index 0 reconstructs exactly
the same tree and returns the total number of bits written. -/
theorem c1_codec_roundtrip (w : Nat) (t : QuadtreeNode)
    (hw : 1 ≤ w) (hw31 : w ≤ 31) (hc : allColorsLt w t = true) :
    encode_v1 w t [] = .ok (encBits w t) ∧
    decode_v1 (encBits w t) w 0 = .ok (t, (encBits w t).length) := by
  constructor
  · have henc := encode_v1_eq_encBits hw31 t [] hc
    simpa using henc
  · have h1 := encBits_length w t
    have h2 : t.size ≤ (1 + w) * t.size :=
      Nat.le_mul_of_pos_left t.size (by omega)
    have hfuel : t.size ≤ (encBits w t).length + 1 := by omega
    have hd := decodeFuel_encBits hw31 t ((encBits w t).length + 1) [] []
      hc hfuel
    unfold decode_v1
    simpa using hd

/-- Witness for C1 at width 1 and a five-node tree. -/
theorem c1_codec_roundtrip_witness :
    encode_v1 1 (.branch 0 (.leaf 1) (.leaf 0) (.leaf 0) (.leaf 1)) [] =
      .ok (encBits 1 (.branch 0 (.leaf 1) (.leaf 0) (.leaf 0) (.leaf 1))) ∧
    decode_v1 (encBits 1 (.branch 0 (.leaf 1) (.leaf 0) (.leaf 0)
        (.leaf 1))) 1 0 =
      .ok (.branch 0 (.leaf 1) (.leaf 0) (.leaf 0) (.leaf 1),
        (encBits 1 (.branch 0 (.leaf 1) (.leaf 0) (.leaf 0)
          (.leaf 1))).length) :=
  c1_codec_roundtrip 1 (.branch 0 (.leaf 1) (.leaf 0) (.leaf 0) (.leaf 1))
    (by norm_num) (by norm_num) (by decide)

/-- Counterexample to C1 as stated: at the claimed boundary width
`w = 32`, a tree whose only color is 1 (strictly below `2 ^ 32`) cannot be
encoded at all — the masked `u32` shift makes the range check `1 >= 1 << 32`
fail every nonzero color (a debug build panics on the shift instead), so no
bitstream is produced to decode. -/
theorem c1_encode_width32_fails :
    allColorsLt 32 (.leaf 1) = true ∧
    encode_v1 32 (.leaf 1) [] = .error .colorOutOfRange :=
  ⟨by decide, by rfl⟩

/-- Every tree `mountAux` builds for a window of side `2 ^ k` has height at
most `k`: a leaf is produced directly, gradient mode stops after one level,
and the quadrant recursion halves the side. -/
theorem mountAux_height (image : List Nat) (row_len w s : Nat) (g : Bool) :
    ∀ (fuel k sx sy : Nat) (t : QuadtreeNode),
      mountAux image row_len w s g fuel (2 ^ k) sx sy = .ok t →
      t.height ≤ k := by
  intro fuel
  induction fuel with
  | zero =>
    intro k sx sy t hm
    rw [mountAux] at hm
    simp at hm
  | succ f ih =>
    intro k sx sy t hm
    rw [mountAux_eq image row_len w s g (f + 1) (2 ^ k) sx sy
      (by omega)] at hm
    simp only [Nat.add_sub_cancel] at hm
    split at hm
    · simp at hm
    · split at hm
      · split at hm
        · injection hm with hm
          subst hm
          rename_i hcond hgrad
          have hk : k ≠ 0 := by
            intro h0
            subst h0
            simp at hcond
          simp only [QuadtreeNode.height, QuadtreeNode.height]
          omega
        · rename_i hcond hgrad
          obtain ⟨kp, rfl⟩ : ∃ kp, k = kp + 1 := by
            rcases Nat.eq_zero_or_pos k with h0 | hpos
            · subst h0
              simp at hcond
            · exact ⟨k - 1, by omega⟩
          have hdiv : 2 ^ (kp + 1) / 2 = 2 ^ kp := by
            rw [Nat.pow_succ, Nat.mul_div_cancel]
            norm_num
          rw [hdiv] at hm
          cases h0 : mountAux image row_len w s g f (2 ^ kp) sx sy with
          | error e => rw [h0] at hm; simp at hm
          | ok s0 =>
            rw [h0] at hm
            cases h1 : mountAux image row_len w s g f (2 ^ kp)
                (sx + 2 ^ kp) sy with
            | error e => rw [h1] at hm; simp at hm
            | ok s1 =>
              rw [h1] at hm
              cases h2 : mountAux image row_len w s g f (2 ^ kp)
                  sx (sy + 2 ^ kp) with
              | error e => rw [h2] at hm; simp at hm
              | ok s2 =>
                rw [h2] at hm
                cases h3 : mountAux image row_len w s g f (2 ^ kp)
                    (sx + 2 ^ kp) (sy + 2 ^ kp) with
                | error e => rw [h3] at hm; simp at hm
                | ok s3 =>
                  rw [h3] at hm
                  simp only [] at hm
                  injection hm with hm
                  subst hm
                  have t0 := ih kp sx sy s0 h0
                  have t1 := ih kp (sx + 2 ^ kp) sy s1 h1
                  have t2 := ih kp sx (sy + 2 ^ kp) s2 h2
                  have t3 := ih kp (sx + 2 ^ kp) (sy + 2 ^ kp) s3 h3
                  simp only [QuadtreeNode.height]
                  omega
      · injection hm with hm
        subst hm
        simp [QuadtreeNode.height]

/-- C2 (amended): for a grid of power-of-two side `2 ^ k` (length `4 ^ k`)
and any sensitivity up to 16384, every root-to-leaf path of the freshly
built tree has length at most `k` — the builder may stop early on uniform
regions, so `exactly k` does not hold (see the counterexample). -/
theorem c2_height_le_log (image : List Nat) (w s k : Nat) (g : Bool)
    (t : QuadtreeNode) (hs : s ≤ 16384)
    (hlen : image.length = 4 ^ k)
    (hm : mount image w s g = .ok t) :
    t.height ≤ k := by
  have h4 : (4 : Nat) ^ k = 2 ^ (2 * k) := by
    rw [(by norm_num : (4 : Nat) = 2 ^ 2), ← pow_mul]
  rw [mount, hlen, h4] at hm
  rw [if_neg (by
    intro hc
    rcases hc with hc | hc
    · exact hc (isPow2_two_pow (2 * k))
    · rw [trailingZeros_two_pow] at hc
      omega)] at hm
  rw [trailingZeros_two_pow] at hm
  have hsh1 : (2 * k) >>> 1 = k := by
    rw [Nat.shiftRight_eq_div_pow]
    omega
  have hsh2 : 2 ^ (2 * k) >>> k = 2 ^ k := by
    rw [Nat.shiftRight_eq_div_pow, Nat.pow_div (by omega) (by norm_num)]
    congr 1
    omega
  rw [hsh1, hsh2] at hm
  exact mountAux_height image (2 ^ k) w s g (2 ^ k) k 0 0 t hm

/-- Witness for C2: a 2×2 grid of four distinct colors at full sensitivity
splits into four single-pixel leaves, of height exactly 1 ≤ 1. -/
theorem c2_height_le_log_witness :
    (16384 ≤ 16384 ∧ ([0, 1, 2, 3] : List Nat).length = 4 ^ 1 ∧
      mount [0, 1, 2, 3] 2 16384 false =
        .ok (.branch 0 (.leaf 0) (.leaf 1) (.leaf 2) (.leaf 3))) ∧
    (QuadtreeNode.branch 0 (.leaf 0) (.leaf 1) (.leaf 2)
      (.leaf 3)).height ≤ 1 :=
  ⟨⟨le_rfl, by decide, by decide⟩,
    c2_height_le_log [0, 1, 2, 3] 2 16384 1 false
      (.branch 0 (.leaf 0) (.leaf 1) (.leaf 2) (.leaf 3))
      le_rfl (by decide) (by decide)⟩

/-- Counterexample to C2 as stated: the uniform 2×2 grid (side `2 ^ 1`)
builds a single leaf even at sensitivity 16384, so its unique root-to-leaf
path has length 0, not 1. -/
theorem c2_uniform_grid_depth_zero :
    (List.replicate 4 0).length = 4 ^ 1 ∧
    mount (List.replicate 4 0) 5 16384 false = .ok (.leaf 0) ∧
    (QuadtreeNode.leaf 0).height ≠ 1 := by
  refine ⟨by decide, by decide, by decide⟩

/-- Concatenating constant rows yields a constant list. -/
theorem flatMap_const_replicate (l : List Nat) (f : Nat → List Nat)
    (a m : Nat) (h : ∀ x ∈ l, f x = List.replicate m a) :
    l.flatMap f = List.replicate (l.length * m) a := by
  induction l with
  | nil => simp
  | cons x xs ih =>
    rw [List.flatMap_cons, h x (by simp),
      ih (fun y hy => h y (by simp [hy])), ← List.replicate_add]
    congr 1
    simp [List.length_cons]
    ring

/-- The whole-grid window of a uniform grid is the grid itself. -/
theorem windowPixels_uniform (n c : Nat) :
    windowPixels (List.replicate (n * n) c) n 0 0 n =
      List.replicate (n * n) c := by
  unfold windowPixels
  rw [flatMap_const_replicate (List.range n) _ c n (by
    intro row hrow
    rw [List.mem_range] at hrow
    rw [List.drop_replicate, List.take_replicate]
    congr 1
    have hr : (row + 1) * n ≤ n * n :=
      Nat.mul_le_mul_right n (by omega)
    have he : (row + 1) * n = row * n + n := by ring
    have hz : (0 + row) * n + 0 = row * n := by ring
    rw [hz]
    omega)]
  rw [List.length_range]

/-- A uniform grid of any power-of-two side mounts to a single leaf of its
color, at every sensitivity up to 16384 and either gradient flag. -/
theorem mount_uniform_leaf (k w s c : Nat) (g : Bool) (hw31 : w ≤ 31)
    (hc : c ≤ 2 ^ w) (hs : s ≤ 16384) :
    mount (List.replicate (2 ^ k * 2 ^ k) c) w s g = .ok (.leaf c) := by
  have hlen : (List.replicate (2 ^ k * 2 ^ k) c).length = 2 ^ (k + k) := by
    simp [List.length_replicate, pow_add]
  rw [mount, hlen]
  rw [if_neg (by
    intro hcon
    rcases hcon with hcon | hcon
    · exact hcon (isPow2_two_pow (k + k))
    · rw [trailingZeros_two_pow] at hcon
      omega)]
  rw [trailingZeros_two_pow]
  have hsh1 : (k + k) >>> 1 = k := by
    rw [Nat.shiftRight_eq_div_pow]
    omega
  have hsh2 : 2 ^ (k + k) >>> k = 2 ^ k := by
    rw [Nat.shiftRight_eq_div_pow, Nat.pow_div (by omega) (by norm_num)]
    congr 1
    omega
  rw [hsh1, hsh2]
  rw [mountAux_eq _ _ _ _ _ _ _ _ _ (Nat.pos_pow_of_pos k (by norm_num))]
  rw [windowPixels_uniform (2 ^ k) c]
  have hpos : 0 < 2 ^ k * 2 ^ k :=
    Nat.mul_pos (Nat.pos_pow_of_pos k (by norm_num))
      (Nat.pos_pow_of_pos k (by norm_num))
  have hdom : dominantPair (List.replicate (2 ^ k * 2 ^ k) c) =
      (2 ^ k * 2 ^ k, c) := by
    unfold dominantPair
    rw [abundanceSort_replicate hpos c]
  rw [hdom]
  simp only [Prod.fst, Prod.snd]
  rw [if_neg (by rw [oneShl32_eq hw31]; omega)]
  rw [if_neg (by
    intro hcon
    have hle : s * 2 ^ k * 2 ^ k ≤ 16384 * (2 ^ k * 2 ^ k) := by
      rw [Nat.mul_assoc]
      exact Nat.mul_le_mul_right _ hs
    have hdivle : s * 2 ^ k * 2 ^ k / 16384 ≤ 2 ^ k * 2 ^ k := by
      have h1 : s * 2 ^ k * 2 ^ k / 16384 ≤
          16384 * (2 ^ k * 2 ^ k) / 16384 := Nat.div_le_div_right hle
      rw [Nat.mul_div_cancel_left _ (by norm_num : (0 : Nat) < 16384)] at h1
      exact h1
    omega)]

/-- Rendering a single leaf: the validity checks, then one flat square of
the leaf's palette color (with or without recursion capacity, a leaf draws
exactly once). -/
theorem toImageAux_leaf (palette : Nat → Except Unit Rgba) (g : Bool)
    (fuel c : Nat) (img : ImageBuf) (curr_size : Nat)
    (curr_pos : Nat × Nat) (hf : 0 < fuel) :
    toImageAux palette g fuel (.leaf c) img curr_size curr_pos =
      if img.width ≠ img.height then .error .nonSquare
      else if ¬ isPow2 img.width = true ∨ ¬ isPow2 curr_size = true then
        .error .nonPowerOfTwo
      else
        match palette c with
        | .error _ => .error .colorOutOfRange
        | .ok col =>
          .ok (fillSquare img col curr_size curr_pos.1 curr_pos.2) := by
  obtain ⟨f, rfl⟩ : ∃ f, fuel = f + 1 := ⟨fuel - 1, by omega⟩
  rw [toImageAux]
  simp only [QuadtreeNode.color]
  by_cases h1 : img.width ≠ img.height
  · rw [if_pos h1, if_pos h1]
  · rw [if_neg h1, if_neg h1]
    by_cases h2 : ¬ isPow2 img.width = true ∨ ¬ isPow2 curr_size = true
    · rw [if_pos h2, if_pos h2]
    · rw [if_neg h2, if_neg h2]
      cases hpal : palette c with
      | error e => rfl
      | ok col => simp

/-- C3: a uniform `S × S` grid of one palette index `c ≤ 2^w` mounts to a
single leaf of color `c` at every sensitivity in `[0, 16384]` and either
gradient flag; rendering that single-leaf tree into an `S × S` buffer
succeeds and fills every pixel with the palette's RGBA color for `c`. -/
theorem c3_uniform_leaf_and_render (k w s c : Nat) (g gr : Bool)
    (palette : Nat → Except Unit Rgba) (col : Rgba) (img : ImageBuf)
    (hw : 1 ≤ w) (hw31 : w ≤ 31) (hc : c ≤ 2 ^ w) (hs : s ≤ 16384)
    (hpal : palette c = .ok col)
    (hwid : img.width = 2 ^ k) (hhei : img.height = 2 ^ k) :
    mount (List.replicate (2 ^ k * 2 ^ k) c) w s g = .ok (.leaf c) ∧
    ∃ res, to_image palette gr (.leaf c) img none none = .ok res ∧
      ∀ x y, x < 2 ^ k → y < 2 ^ k → res.pix x y = col := by
  refine ⟨mount_uniform_leaf k w s c g hw31 hc hs, ?_⟩
  rw [to_image]
  rw [if_neg (by rw [hwid, hhei]; simp)]
  rw [if_neg (by
    intro hcon
    rcases hcon with hcon | hcon
    · rw [hwid] at hcon
      exact hcon (isPow2_two_pow k)
    · simp [Option.map_none] at hcon)]
  simp only [Option.getD_none]
  rw [toImageAux_leaf palette gr img.width c img img.width (0, 0)
    (by rw [hwid]; positivity)]
  rw [if_neg (by rw [hwid, hhei]; simp)]
  rw [if_neg (by
    intro hcon
    rw [hwid] at hcon
    rcases hcon with hcon | hcon <;> exact hcon (isPow2_two_pow k))]
  rw [hpal]
  refine ⟨_, rfl, ?_⟩
  intro x y hx hy
  unfold fillSquare
  simp only []
  rw [if_pos (by rw [hwid, hhei]; omega)]

/-- Witness for C3: the uniform 2×2 grid of palette index 1, rendered
through a palette mapping index 1 to a concrete color. -/
theorem c3_uniform_leaf_and_render_witness :
    mount (List.replicate (2 ^ 1 * 2 ^ 1) 1) 1 16384 false =
      .ok (.leaf 1) ∧
    ∃ res, to_image
        (fun n => if n = 1 then .ok ⟨9, 9, 9, 9⟩ else .error ()) false
        (.leaf 1) ⟨2, 2, fun _ _ => transparentBlack⟩ none none =
        .ok res ∧
      ∀ x y, x < 2 ^ 1 → y < 2 ^ 1 → res.pix x y = ⟨9, 9, 9, 9⟩ :=
  c3_uniform_leaf_and_render 1 1 16384 1 false false
    (fun n => if n = 1 then .ok ⟨9, 9, 9, 9⟩ else .error ())
    ⟨9, 9, 9, 9⟩ ⟨2, 2, fun _ _ => transparentBlack⟩
    (by norm_num) (by norm_num) (by norm_num) (by norm_num)
    (by rfl) (by rfl) (by rfl)

/-- The head of the abundance sort is a most-abundant color of the window,
with ties broken toward the numerically lowest color: its stored count is
its actual count, no color is counted more often, and any color matching
the maximal count is at least the chosen one. -/
theorem dominantPair_spec (region : List Nat) (d : Nat) (hd : d ∈ region) :
    region.count d ≤ (dominantPair region).1 ∧
    (dominantPair region).1 = region.count (dominantPair region).2 ∧
    (dominantPair region).2 ∈ region ∧
    (region.count d = (dominantPair region).1 →
      (dominantPair region).2 ≤ d) := by
  have hmem : (region.count d, d) ∈ abundanceSort region := by
    unfold abundanceSort
    rw [List.mem_insertionSort]
    exact List.mem_map.mpr ⟨d, List.mem_dedup.mpr hd, rfl⟩
  obtain ⟨p, tl, hL⟩ : ∃ p tl, abundanceSort region = p :: tl := by
    cases hAS : abundanceSort region with
    | nil =>
      rw [hAS] at hmem
      simp at hmem
    | cons p tl => exact ⟨p, tl, rfl⟩
  have hdp : dominantPair region = p := by
    unfold dominantPair
    rw [hL]
  have hsorted : List.Sorted abundanceRel (abundanceSort region) := by
    unfold abundanceSort
    exact List.sorted_insertionSort abundanceRel _
  rw [hL] at hsorted
  have hrel : abundanceRel p (region.count d, d) := by
    rw [hL] at hmem
    rcases List.mem_cons.mp hmem with heq | htl
    · rw [← heq]
      right
      exact ⟨rfl, le_rfl⟩
    · exact (List.sorted_cons.mp hsorted).1 _ htl
  have hp : p ∈ abundanceSort region := by
    rw [hL]
    simp
  obtain ⟨u, hu, he⟩ : ∃ u, u ∈ region.dedup ∧ (region.count u, u) = p := by
    unfold abundanceSort at hp
    rw [List.mem_insertionSort] at hp
    obtain ⟨u, hu1, hu2⟩ := List.mem_map.mp hp
    exact ⟨u, hu1, hu2⟩
  rw [hdp, ← he]
  rw [← he] at hrel
  unfold abundanceRel at hrel
  simp only at hrel
  refine ⟨?_, rfl, List.mem_dedup.mp hu, ?_⟩
  · show region.count d ≤ region.count u
    omega
  · intro hc
    show u ≤ d
    simp only at hc
    omega

/-- C7: for a region of side `S = 2^k > 2` with gradient mode enabled,
when the region is non-uniform (dominant count below
`sensitivity * S² / 16384`) and the capped abundance sum of its four most
abundant colors exceeds that threshold, `mount` produces exactly four leaf
children with no further recursion, child `i` colored by the single most
abundant color (ties broken toward the lowest index) of the `S/4`-sided
sub-window at offset `x = 3S/4` if `i &&& 1 ≠ 0` else `0`, `y = 3S/4` if
`i &&& 2 ≠ 0` else `0`. -/
theorem c7_gradient_children (image : List Nat) (row_len w s fuel k sx sy : Nat)
    (hk : 2 ≤ k)
    (hcol : (dominantPair (windowPixels image row_len sx sy (2 ^ k))).2 ≤
      oneShl32 w)
    (hnonuni : (dominantPair (windowPixels image row_len sx sy (2 ^ k))).1 <
      s * 2 ^ k * 2 ^ k / 16384)
    (hgrad : s * 2 ^ k * 2 ^ k / 16384 <
      gradientSum (windowPixels image row_len sx sy (2 ^ k)) s (2 ^ k)) :
    mountAux image row_len w s true (fuel + 1) (2 ^ k) sx sy =
      .ok (.branch (dominantPair (windowPixels image row_len sx sy (2 ^ k))).2
        (.leaf (dominantPair
          (windowPixels image row_len sx sy (2 ^ k / 4))).2)
        (.leaf (dominantPair
          (windowPixels image row_len (sx + 3 * 2 ^ k / 4) sy (2 ^ k / 4))).2)
        (.leaf (dominantPair
          (windowPixels image row_len sx (sy + 3 * 2 ^ k / 4) (2 ^ k / 4))).2)
        (.leaf (dominantPair
          (windowPixels image row_len (sx + 3 * 2 ^ k / 4) (sy + 3 * 2 ^ k / 4)
            (2 ^ k / 4))).2)) ∧
    (∀ px py d, d ∈ windowPixels image row_len px py (2 ^ k / 4) →
      (windowPixels image row_len px py (2 ^ k / 4)).count d ≤
        (windowPixels image row_len px py (2 ^ k / 4)).count
          (dominantPair (windowPixels image row_len px py (2 ^ k / 4))).2 ∧
      ((windowPixels image row_len px py (2 ^ k / 4)).count d =
          (windowPixels image row_len px py (2 ^ k / 4)).count
            (dominantPair (windowPixels image row_len px py (2 ^ k / 4))).2 →
        (dominantPair (windowPixels image row_len px py (2 ^ k / 4))).2 ≤ d)) := by
  have h4le : (4 : Nat) ≤ 2 ^ k := by
    calc (4 : Nat) = 2 ^ 2 := by norm_num
    _ ≤ 2 ^ k := Nat.pow_le_pow_right (by norm_num) hk
  obtain ⟨m, hm⟩ : ∃ m, 2 ^ k = 4 * m := by
    refine ⟨2 ^ (k - 2), ?_⟩
    have hsplit : 2 ^ k = 2 ^ (2 + (k - 2)) := by
      congr 1
      omega
    rw [hsplit, pow_add]
    norm_num
  have hand01 : (0 : Nat) &&& 1 = 0 := by decide
  have hand11 : (1 : Nat) &&& 1 = 1 := by decide
  have hand21 : (2 : Nat) &&& 1 = 0 := by decide
  have hand31 : (3 : Nat) &&& 1 = 1 := by decide
  have hand02 : (0 : Nat) &&& 2 = 0 := by decide
  have hand12 : (1 : Nat) &&& 2 = 0 := by decide
  have hand22 : (2 : Nat) &&& 2 = 2 := by decide
  have hand32 : (3 : Nat) &&& 2 = 2 := by decide
  have hx0 : gradOffX 0 (2 ^ k / 4) = 0 := by
    unfold gradOffX
    rw [hand01]
    omega
  have hx1 : gradOffX 1 (2 ^ k / 4) = 3 * 2 ^ k / 4 := by
    unfold gradOffX
    rw [hand11]
    omega
  have hx2 : gradOffX 2 (2 ^ k / 4) = 0 := by
    unfold gradOffX
    rw [hand21]
    omega
  have hx3 : gradOffX 3 (2 ^ k / 4) = 3 * 2 ^ k / 4 := by
    unfold gradOffX
    rw [hand31]
    omega
  have hy0 : gradOffY 0 (2 ^ k / 4) = 0 := by
    unfold gradOffY
    rw [hand02]
    omega
  have hy1 : gradOffY 1 (2 ^ k / 4) = 0 := by
    unfold gradOffY
    rw [hand12]
    omega
  have hy2 : gradOffY 2 (2 ^ k / 4) = 3 * 2 ^ k / 4 := by
    unfold gradOffY
    rw [hand22]
    omega
  have hy3 : gradOffY 3 (2 ^ k / 4) = 3 * 2 ^ k / 4 := by
    unfold gradOffY
    rw [hand32]
    omega
  constructor
  · rw [mountAux_eq image row_len w s true (fuel + 1) (2 ^ k) sx sy
      (by omega)]
    simp only [Prod.fst, Prod.snd]
    rw [if_neg (by omega)]
    rw [if_pos ⟨by omega, hnonuni⟩]
    rw [if_pos ⟨trivial, by omega, hgrad⟩]
    simp only [gradChildColor, hx0, hx1, hx2, hx3, hy0, hy1, hy2, hy3,
      Nat.add_zero]
  · intro px py d hd
    obtain ⟨h1, h2, h3, h4⟩ := dominantPair_spec _ d hd
    refine ⟨by omega, fun hc => h4 (by omega)⟩

/-- Concrete instance of the gradient-children theorem on a 4×4 grid whose
four corners are dominated by colors 0, 1, 2 and 3. -/
theorem c7_gradient_children_witness :
    (2 ≤ 2 ∧
      (dominantPair (windowPixels [0, 0, 0, 1, 0, 0, 1, 1, 1, 1, 2, 2, 2, 3,
        3, 3] 4 0 0 (2 ^ 2))).2 ≤ oneShl32 2 ∧
      (dominantPair (windowPixels [0, 0, 0, 1, 0, 0, 1, 1, 1, 1, 2, 2, 2, 3,
        3, 3] 4 0 0 (2 ^ 2))).1 < 8192 * 2 ^ 2 * 2 ^ 2 / 16384 ∧
      8192 * 2 ^ 2 * 2 ^ 2 / 16384 <
        gradientSum (windowPixels [0, 0, 0, 1, 0, 0, 1, 1, 1, 1, 2, 2, 2, 3,
          3, 3] 4 0 0 (2 ^ 2)) 8192 (2 ^ 2)) ∧
    mountAux [0, 0, 0, 1, 0, 0, 1, 1, 1, 1, 2, 2, 2, 3, 3, 3] 4 2 8192 true
        (0 + 1) (2 ^ 2) 0 0 =
      .ok (.branch 0 (.leaf 0) (.leaf 1) (.leaf 2) (.leaf 3)) := by
  refine ⟨⟨le_refl 2, by decide, by decide, by decide⟩, ?_⟩
  have h := (c7_gradient_children
    [0, 0, 0, 1, 0, 0, 1, 1, 1, 1, 2, 2, 2, 3, 3, 3] 4 2 8192 0 2 0 0
    (le_refl 2) (by decide) (by decide) (by decide)).1
  rw [h]
  decide

/-- For every header byte below 256 whose low five bits are not all set
(`pal_size ≤ 31`), the computed `pal_len` has at most four set bits, so
the `assert!` in `from_qti` passes. -/
theorem popCount_palLen_le :
    ∀ b7 < 256, b7 &&& 31 ≠ 31 → popCount (palLenOf b7) ≤ 4 := by
  set_option maxRecDepth 4096 in decide

/-- C5: for a buffer carrying the magic, a version byte `v` and a header
byte `b7` that passes the assert and whose palette fits (`pal_size ≤ 31`,
enough bytes), `from_qti` routes on the version: `v = 2` fails with
`InsufficientData` (the `decode_v2` stub's error, not a version error),
any `v ∉ {1, 2}` fails with `MissingHeader`, and no `v ≠ 1` ever returns
a decoded tree. -/
theorem c5_version_routing (source : List Nat) (b7 v : Nat)
    (htake : source.take 6 = magicBytes)
    (h7 : source[7]? = some b7)
    (h6 : source[6]? = some v)
    (hb : b7 < 256)
    (hps : b7 &&& 31 ≠ 31)
    (hlen : 8 + 4 * palLenOf b7 ≤ source.length) :
    (v = 2 → from_qti source = .err .insufficientData) ∧
    (v ≠ 1 → v ≠ 2 → from_qti source = .err .missingHeader) ∧
    (v ≠ 1 → ∀ r, from_qti source ≠ .ok r) := by
  have hlen6 : ¬ source.length < 6 := by
    have h := congrArg List.length htake
    rw [List.length_take] at h
    simp only [magicBytes] at h
    simp at h
    omega
  have hpc : ¬ 4 < popCount (palLenOf b7) := by
    have := popCount_palLen_le b7 hb hps
    omega
  have hps32 : ¬ palSizeOf b7 = 32 := by
    unfold palSizeOf
    have hand : b7 &&& 31 ≤ 31 := Nat.and_le_right
    omega
  unfold from_qti
  rw [if_neg hlen6, if_neg (fun h => h htake), h7]
  simp only
  rw [if_neg hpc, if_neg (by omega), h6]
  refine ⟨?_, ?_, ?_⟩
  · rintro rfl
    simp only
    rw [if_neg hps32]
  · intro hv1 hv2
    rcases v with _ | _ | _ | v
    · simp only
    · exact absurd rfl hv1
    · exact absurd rfl hv2
    · simp only
  · intro hv1 r
    rcases v with _ | _ | _ | v
    · simp only
      intro h
      exact DecodeOutcome.noConfusion h
    · exact absurd rfl hv1
    · simp only
      split
      · intro h
        exact DecodeOutcome.noConfusion h
      · intro h
        exact DecodeOutcome.noConfusion h
    · simp only
      intro h
      exact DecodeOutcome.noConfusion h

/-- Decoding a well-formed version-2 file fails with `InsufficientData`
(the error of the unimplemented `decode_v2`), which is a different error
from the `MissingHeader` returned for unknown versions — not an
unsupported-version error. -/
theorem c5_version2_insufficient_data :
    from_qti (magicBytes ++ [2, 0, 0, 0, 0, 0]) = .err .insufficientData ∧
    DecodeError.insufficientData ≠ DecodeError.missingHeader := by
  exact ⟨by decide, by decide⟩

/-- Concrete instance of the version-routing theorem: a version-3 file
with an otherwise valid header fails with `MissingHeader`. -/
theorem c5_version_routing_witness :
    ((magicBytes ++ [3, 0, 0, 0, 0, 0]).take 6 = magicBytes ∧
      (magicBytes ++ [3, 0, 0, 0, 0, 0])[7]? = some 0 ∧
      (magicBytes ++ [3, 0, 0, 0, 0, 0])[6]? = some 3 ∧
      (0 : Nat) < 256 ∧ (0 : Nat) &&& 31 ≠ 31 ∧
      8 + 4 * palLenOf 0 ≤ (magicBytes ++ [3, 0, 0, 0, 0, 0]).length) ∧
    from_qti (magicBytes ++ [3, 0, 0, 0, 0, 0]) = .err .missingHeader := by
  refine ⟨⟨by decide, by decide, by decide, by decide, by decide, by decide⟩,
    ?_⟩
  exact (c5_version_routing (magicBytes ++ [3, 0, 0, 0, 0, 0]) 0 3
    (by decide) (by decide) (by decide) (by decide) (by decide)
    (by decide)).2.1 (by decide) (by decide)

/-- The meaningful entry count never exceeds the resized palette length. -/
theorem meaningfulCount_le (w : Nat) (vec : List Rgba) :
    meaningfulCount w vec ≤ 2 ^ w := Nat.sub_le _ _

/-- Byte 7's value for an in-range chunk count: the wrapped `u32`
subtraction, shift and `u8` cast are all exact, and the `|` packs
`chunks - 9` into bits 5–7 above `w - 1`. -/
theorem header_or_eq (ch wv : Nat) (h9 : 9 ≤ ch) (h16 : ch ≤ 16)
    (hwv : wv < 32) :
    (ch + 4294967296 - 9) % 4294967296 * 32 % 4294967296 % 256 ||| wv =
      (ch - 9) * 32 + wv := by
  have h1 : (ch + 4294967296 - 9) % 4294967296 = ch - 9 := by omega
  rw [h1]
  have h2 : (ch - 9) * 32 % 4294967296 % 256 = (ch - 9) * 32 := by omega
  rw [h2]
  have h3 := Nat.mul_add_lt_is_or (b := wv) (i := 5) (by omega) (ch - 9)
  have h4 : (ch - 9) * 32 = 2 ^ 5 * (ch - 9) := by ring
  rw [h4, ← h3]

/-- `take_while` over a run of matching elements followed by one mismatch
keeps exactly the run. -/
theorem takeWhile_replicate_append_singleton {α : Type} (p : α → Bool)
    (a b : α) (N : Nat) (hpa : p a = true) (hpb : p b = false) :
    (List.replicate N a ++ [b]).takeWhile p = List.replicate N a := by
  induction N with
  | zero => simp [List.takeWhile_cons, hpb]
  | succ n ih => simp [List.replicate_succ, List.takeWhile_cons, hpa, ih]

/-- C9: for every palette width `w ∈ [1, 27]` and backing slice, the
entry count written to the container satisfies
`meaningful ≤ approx_len ≤ 2^w`, is a multiple of `2^w / 16` when
`w ≥ 4`, the chunk count lies in `[9, 16]`, and byte 7 packs
`chunks - 9` in bits 5–7 above `w - 1` in bits 0–4.  (For `w ≥ 28` the
`u32` product `ceil * (1 << w)` wraps and the bounds fail.) -/
theorem c9_header_bounds (w : Nat) (vec : List Rgba) (hw1 : 1 ≤ w)
    (hw : w ≤ 27) :
    meaningfulCount w vec ≤ approxLen w vec ∧
    approxLen w vec ≤ 2 ^ w ∧
    (4 ≤ w → 2 ^ w / 16 ∣ approxLen w vec) ∧
    9 ≤ chunksOf w vec ∧ chunksOf w vec ≤ 16 ∧
    headerByte w vec = (chunksOf w vec - 9) * 32 + (w - 1) := by
  have hn : meaningfulCount w vec ≤ 2 ^ w := meaningfulCount_le w vec
  rcases Nat.lt_or_ge w 4 with hw4 | hw4
  · interval_cases w
    · have hb : 9 ≤ chunksOf 1 vec ∧ chunksOf 1 vec ≤ 16 ∧
          meaningfulCount 1 vec ≤ approxLen 1 vec ∧
          approxLen 1 vec ≤ 2 ^ 1 := by
        unfold chunksOf approxLen paletteLen
        norm_num
        omega
      refine ⟨hb.2.2.1, hb.2.2.2, fun h => absurd h (by norm_num),
        hb.1, hb.2.1, ?_⟩
      show headerByte 1 vec = _
      unfold headerByte
      exact header_or_eq _ _ hb.1 hb.2.1 (by norm_num)
    · have hb : 9 ≤ chunksOf 2 vec ∧ chunksOf 2 vec ≤ 16 ∧
          meaningfulCount 2 vec ≤ approxLen 2 vec ∧
          approxLen 2 vec ≤ 2 ^ 2 := by
        unfold chunksOf approxLen paletteLen
        norm_num
        omega
      refine ⟨hb.2.2.1, hb.2.2.2, fun h => absurd h (by norm_num),
        hb.1, hb.2.1, ?_⟩
      show headerByte 2 vec = _
      unfold headerByte
      exact header_or_eq _ _ hb.1 hb.2.1 (by norm_num)
    · have hb : 9 ≤ chunksOf 3 vec ∧ chunksOf 3 vec ≤ 16 ∧
          meaningfulCount 3 vec ≤ approxLen 3 vec ∧
          approxLen 3 vec ≤ 2 ^ 3 := by
        unfold chunksOf approxLen paletteLen
        norm_num
        omega
      refine ⟨hb.2.2.1, hb.2.2.2, fun h => absurd h (by norm_num),
        hb.1, hb.2.1, ?_⟩
      show headerByte 3 vec = _
      unfold headerByte
      exact header_or_eq _ _ hb.1 hb.2.1 (by norm_num)
  · obtain ⟨m, hm⟩ : ∃ m, 2 ^ w = 16 * m := by
      refine ⟨2 ^ (w - 4), ?_⟩
      have hsplit : 2 ^ w = 2 ^ (4 + (w - 4)) := by
        congr 1
        omega
      rw [hsplit, pow_add]
      norm_num
    have hm1 : 1 ≤ m := by
      have h16 : (16 : Nat) ≤ 2 ^ w := by
        calc (16 : Nat) = 2 ^ 4 := by norm_num
        _ ≤ 2 ^ w := Nat.pow_le_pow_right (by norm_num) hw4
      omega
    have hq : 0 < 16 * m := by omega
    have hK : (9 * 2 ^ w + 15) / 16 = 9 * m := by
      rw [hm, show 9 * (16 * m) = 16 * (9 * m) by ring,
        Nat.mul_add_div (by norm_num)]
      norm_num
    set n := meaningfulCount w vec with hn_def
    set pl := paletteLen w vec with hpl_def
    have hpl_eq : pl = max n (9 * m) := by
      rw [hpl_def]
      unfold paletteLen
      rw [hK]
    have hpl_ge : 9 * m ≤ pl := by
      rw [hpl_eq]
      exact le_max_right _ _
    have hpl_len : n ≤ pl := by
      rw [hpl_eq]
      exact le_max_left _ _
    have hpl_le : pl ≤ 16 * m := by
      rw [hpl_eq, max_le_iff]
      exact ⟨by omega, by omega⟩
    set c := (pl * 16 + 2 ^ w - 1) / 2 ^ w with hc_def
    have hc_def2 : c = (pl * 16 + 16 * m - 1) / (16 * m) := by
      rw [hc_def, hm]
    have hc9 : 9 ≤ c := by
      rw [hc_def2, Nat.le_div_iff_mul_le hq]
      omega
    have hc16 : c ≤ 16 := by
      rw [hc_def2, Nat.div_le_iff_le_mul_add_pred hq]
      omega
    have hceil : pl * 16 ≤ 16 * m * c := by
      have h := Nat.div_add_mod (pl * 16 + 16 * m - 1) (16 * m)
      have hr := Nat.mod_lt (pl * 16 + 16 * m - 1) hq
      rw [← hc_def2] at h
      omega
    have hnowrap : c * 2 ^ w < 4294967296 := by
      have h1 : c * 2 ^ w ≤ 16 * 2 ^ w := Nat.mul_le_mul_right _ hc16
      have h27 : (2 : Nat) ^ w ≤ 2 ^ 27 := Nat.pow_le_pow_right (by norm_num) hw
      omega
    have happrox : approxLen w vec = c * m := by
      unfold approxLen
      rw [← hpl_def, ← hc_def, Nat.mod_eq_of_lt hnowrap, hm,
        show c * (16 * m) = 16 * (c * m) by ring,
        Nat.mul_div_cancel_left _ (by norm_num)]
    have hchunks : chunksOf w vec = c := by
      unfold chunksOf
      rw [happrox, hm, show c * m * 16 = 16 * m * c by ring,
        Nat.mul_div_cancel_left c hq]
    refine ⟨?_, ?_, ?_, ?_, ?_, ?_⟩
    · rw [happrox]
      have h1 : 16 * m * c = 16 * (c * m) := by ring
      omega
    · rw [happrox, hm]
      exact Nat.mul_le_mul_right m hc16
    · intro _
      rw [happrox, hm, Nat.mul_div_cancel_left m (by norm_num)]
      exact dvd_mul_left m c
    · rw [hchunks]
      exact hc9
    · rw [hchunks]
      exact hc16
    · show headerByte w vec = _
      unfold headerByte
      rw [hchunks]
      exact header_or_eq c (w - 1) hc9 hc16 (by omega)

/-- At width 29 the chunk count is at most 8 for every palette slice:
whatever the meaningful entry count, the ceiling factor lies in
`[9, 16]`, so the `u32` product `ceil * (1 << 29)` wraps modulo `2^32`
(a debug build panics on the overflow) and at least `8 * 2^29` is lost
from the stored length. -/
theorem chunksOf_w29_le_eight (vec : List Rgba) : chunksOf 29 vec ≤ 8 := by
  have h1 : meaningfulCount 29 vec ≤ 2 ^ 29 := meaningfulCount_le 29 vec
  unfold chunksOf approxLen paletteLen
  have e : (2 : Nat) ^ 29 = 536870912 := by norm_num
  rw [e] at h1 ⊢
  omega

/-- At width 29 a single-entry palette gets a chunk count outside the
claimed `[9, 16]`, so the header-encoding bound fails beyond width 27. -/
theorem c9_width29_chunks_out_of_range :
    ¬ 9 ≤ chunksOf 29 [Rgba.mk 255 255 255 255] := by
  have h := chunksOf_w29_le_eight [Rgba.mk 255 255 255 255]
  omega

/-- Concrete instance of the header-bound theorem at width 2 with one
meaningful color: twelve chunks, three stored entries, header byte 97. -/
theorem c9_header_bounds_witness :
    ((1 : Nat) ≤ 2 ∧ (2 : Nat) ≤ 27) ∧
    (meaningfulCount 2 [Rgba.mk 1 2 3 4] ≤ approxLen 2 [Rgba.mk 1 2 3 4] ∧
      approxLen 2 [Rgba.mk 1 2 3 4] ≤ 2 ^ 2 ∧
      (4 ≤ 2 → 2 ^ 2 / 16 ∣ approxLen 2 [Rgba.mk 1 2 3 4]) ∧
      9 ≤ chunksOf 2 [Rgba.mk 1 2 3 4] ∧
      chunksOf 2 [Rgba.mk 1 2 3 4] ≤ 16 ∧
      headerByte 2 [Rgba.mk 1 2 3 4] =
        (chunksOf 2 [Rgba.mk 1 2 3 4] - 9) * 32 + (2 - 1)) :=
  ⟨⟨by norm_num, by norm_num⟩,
    c9_header_bounds 2 [Rgba.mk 1 2 3 4] (by norm_num) (by norm_num)⟩
